import Mathlib

/-!
Verification of the jsonld-kit compiler core against its specification.

The development shallowly embeds the TypeScript generator (graph extraction,
identifier sanitation, topological linearization, type mapping) and the
JSON-LD script-escaping helper, and proves the specified properties about
those embeddings.

Conventions of the embedding:
* JS Map objects keyed by a definition's name are lists of definitions with
  pairwise distinct names (stated as a Nodup hypothesis where needed).
* JS Set objects are lists built with append-if-absent, preserving insertion
  order, exactly as Set iteration does.
* JS strings are Lean strings; single-character regex replacement and
  character class tests are modeled per code point.
* Array.prototype.sort() on strings is modeled by insertion sort under the
  lexicographic order on code points.
-/

namespace JsonLdKit

/-! ### Lexicographic string order, modelling Array.prototype.sort() -/

/-- Strict lexicographic order on character lists, by numeric code point. -/
def strLtCharList : List Char → List Char → Bool
  | [], [] => false
  | [], _ :: _ => true
  | _ :: _, [] => false
  | a :: as, b :: bs =>
      if a.toNat < b.toNat then true
      else if b.toNat < a.toNat then false
      else strLtCharList as bs

/-- Non-strict lexicographic comparison on strings. -/
def strLeb (s t : String) : Bool := !(strLtCharList t.data s.data)

/-- The sorting relation used to model the generator's .sort() calls. -/
def StrLe (a b : String) : Prop := strLeb a b = true

instance : DecidableRel StrLe :=
  fun a b => inferInstanceAs (Decidable (strLeb a b = true))

/-- Model of Array.prototype.sort() for lists of strings. -/
def sortStrings (l : List String) : List String := List.insertionSort StrLe l

/-! ### Data model (ClassDef, PropDef) -/

/-- A vocabulary class, as built by buildGraph.  The generator stores these
in a Map keyed by name; we model that Map as a list of definitions whose
names are pairwise distinct. -/
structure ClassDef where
  name : String
  iri : String
  parents : List String
  properties : List String
deriving DecidableEq

/-- A vocabulary property, as built by buildGraph. -/
structure PropDef where
  name : String
  iri : String
  domains : List String
  ranges : List String
deriving DecidableEq

/-- Names of the classes, i.e. the key set of the class Map. -/
def classNames (classes : List ClassDef) : List String := classes.map (·.name)

/-- Model of Map.has on the class Map. -/
def hasClass (classes : List ClassDef) (n : String) : Bool :=
  (classNames classes).contains n

/-- Model of Map.get on the class Map. -/
def lookupClass (classes : List ClassDef) (n : String) : Option ClassDef :=
  classes.find? (fun c => c.name == n)

/-- Model of Map.get on the property Map. -/
def lookupProp (props : List PropDef) (n : String) : Option PropDef :=
  props.find? (fun p => p.name == n)

/-! ### Triple store adapter: getObjects -/

/-- RDF terms as exposed by the store (n3 term kinds). -/
inductive Term where
  | namedNode (value : String)
  | literal (value : String)
  | blankNode (value : String)
  | variableNode (value : String)
  | defaultGraph
deriving DecidableEq

/-- The value field of a term (the default graph has the empty value). -/
def Term.value : Term → String
  | .namedNode v => v
  | .literal v => v
  | .blankNode v => v
  | .variableNode v => v
  | .defaultGraph => ""

/-- Predicate isNamedNode from the source. -/
def isNamedNode (t : Term) : Bool :=
  match t with
  | .namedNode _ => true
  | _ => false

/-- Predicate isLiteral from the source. -/
def isLiteral (t : Term) : Bool :=
  match t with
  | .literal _ => true
  | _ => false

/-- An RDF quad as stored. -/
structure Quad where
  subject : Term
  predicate : Term
  object : Term
  graph : Term
deriving DecidableEq

/-- Conversion of a string id to a term, as the n3 store performs on string
arguments of getQuads.  Ids beginning with a quotation mark denote literals;
n3 additionally parses their datatype, which the generator never relies on,
so the value is kept verbatim here. -/
def termFromId (s : String) : Term :=
  if s = "" then .defaultGraph
  else if ['_', ':'].isPrefixOf s.data then .blankNode (String.mk (s.data.drop 2))
  else if ['?'].isPrefixOf s.data then .variableNode (String.mk (s.data.drop 1))
  else if ['\"'].isPrefixOf s.data then .literal s
  else .namedNode s

/-- Model of store.getQuads(subject, predicate, null, null): all quads whose
subject and predicate match, in store order. -/
def getQuads (store : List Quad) (subject predicate : String) : List Quad :=
  store.filter (fun q =>
    q.subject == termFromId subject && q.predicate == termFromId predicate)

/-- The getObjects adapter from the source: map matching quads to the term
value for named nodes and literals (empty string otherwise), then filter by
JS truthiness, which drops empty strings. -/
def getObjects (store : List Quad) (subject predicate : String) : List String :=
  ((getQuads store subject predicate).map (fun q =>
      if isNamedNode q.object || isLiteral q.object then q.object.value else ""))
    |>.filter (fun v => !(v == ""))

/-! ### Identifier sanitizer: toTsIdent -/

/-- The reserved-word set TS_RESERVED from the source. -/
def TS_RESERVED : List String :=
  ["break", "case", "catch", "class", "const", "continue", "debugger",
   "default", "delete", "do", "else", "enum", "export", "extends", "false",
   "finally", "for", "function", "if", "import", "in", "instanceof", "new",
   "null", "return", "super", "switch", "this", "throw", "true", "try",
   "typeof", "var", "void", "while", "with", "as", "implements", "interface",
   "let", "package", "private", "protected", "public", "static", "yield",
   "any", "boolean", "number", "string", "symbol", "type", "unknown",
   "never", "object", "readonly", "keyof", "declare", "abstract",
   "namespace", "module", "global", "require"]

/-- Membership in the regex class [A-Za-z0-9_$], by code point:
A-Z is 65-90, a-z is 97-122, 0-9 is 48-57, underscore 95, dollar 36. -/
def identChar (c : Char) : Bool :=
  decide ((65 ≤ c.toNat ∧ c.toNat ≤ 90) ∨ (97 ≤ c.toNat ∧ c.toNat ≤ 122) ∨
    (48 ≤ c.toNat ∧ c.toNat ≤ 57) ∨ c.toNat = 95 ∨ c.toNat = 36)

/-- Membership in the regex class [A-Za-z_$]. -/
def identStartChar (c : Char) : Bool :=
  decide ((65 ≤ c.toNat ∧ c.toNat ≤ 90) ∨ (97 ≤ c.toNat ∧ c.toNat ≤ 122) ∨
    c.toNat = 95 ∨ c.toNat = 36)

/-- Membership in the regex class [0-9]. -/
def digitChar (c : Char) : Bool := decide (48 ≤ c.toNat ∧ c.toNat ≤ 57)

/-- Test for the anchored regex of the form caret-[0-9]: does the string
start with a digit. -/
def startsWithDigit (s : String) : Bool :=
  match s.data with
  | [] => false
  | c :: _ => digitChar c

/-- Test for the anchored regex of the form caret-[A-Za-z_$]. -/
def startsWithIdentStart (s : String) : Bool :=
  match s.data with
  | [] => false
  | c :: _ => identStartChar c

/-- First statement of toTsIdent: replace every character outside
[A-Za-z0-9_$] by an underscore (the global regex replacement). -/
def sanitizeChars (s : String) : String :=
  String.mk (s.data.map (fun c => if identChar c then c else '_'))

/-- Second statement of toTsIdent: prepend an underscore when the string
starts with a digit. -/
def prependIfDigit (s : String) : String :=
  if startsWithDigit s then "_" ++ s else s

/-- Third statement of toTsIdent: prepend an underscore when the string
still does not start with a letter, underscore or dollar sign. -/
def prependIfBadStart (s : String) : String :=
  if startsWithIdentStart s then s else "_" ++ s

/-- Fourth statement of toTsIdent: append an underscore when the string is
a reserved word. -/
def suffixIfReserved (s : String) : String :=
  if TS_RESERVED.contains s then s ++ "_" else s

/-- The sanitizer toTsIdent from the source, the composition of its four
statements in order. -/
def toTsIdent (schemaName : String) : String :=
  suffixIfReserved (prependIfBadStart (prependIfDigit (sanitizeChars schemaName)))

/-- Syntactic validity of a TypeScript identifier: nonempty, first character
in [A-Za-z_$], remaining characters in [A-Za-z0-9_$], and not reserved. -/
def isValidTsIdentStr (s : String) : Bool :=
  (match s.data with
   | [] => false
   | c :: rest => identStartChar c && rest.all identChar)
  && !(TS_RESERVED.contains s)

/-! ### Type mapper: rangeToTs and propToTs -/

/-- Model of Map.get on the schema-name-to-identifier table. -/
def lookupIdent (tbl : List (String × String)) (k : String) : Option String :=
  (tbl.find? (fun e => e.1 == k)).map (fun e => e.2)

/-- The nine primitive vocabulary range names handled by the switch in
rangeToTs. -/
def primitiveRangeNames : List String :=
  ["Text", "URL", "Boolean", "Number", "Integer", "Float", "Date",
   "DateTime", "Time"]

/-- The type mapper rangeToTs from the source: primitives map to scalar
types, anything else to the class identifier (table entry, or the sanitized
range name as fallback) union plain string. -/
def rangeToTs (rangeName : String) (classIdentByName : List (String × String)) :
    String :=
  if rangeName = "Text" ∨ rangeName = "URL" then "string"
  else if rangeName = "Boolean" then "boolean"
  else if rangeName = "Number" ∨ rangeName = "Integer" ∨ rangeName = "Float" then
    "number"
  else if rangeName = "Date" ∨ rangeName = "DateTime" ∨ rangeName = "Time" then
    "string"
  else
    let ident := (lookupIdent classIdentByName rangeName).getD (toTsIdent rangeName)
    ident ++ " | string"

/-- Set.add: append if absent. -/
def addUnique (l : List String) (x : String) : List String :=
  if l.contains x then l else l ++ [x]

/-- Model of Array.from(new Set(l)): deduplicate keeping first occurrences
in order. -/
def dedupFirst (l : List String) : List String :=
  l.foldl addUnique []

/-- The property type mapper propToTs from the source: deduplicate and sort
the ranges, return unknown when empty, otherwise the union of the mapped
ranges together with an array of that union. -/
def propToTs (prop : PropDef) (classIdentByName : List (String × String)) :
    String :=
  let ranges := sortStrings (dedupFirst prop.ranges)
  if ranges.length = 0 then "unknown"
  else
    let union := String.intercalate " | " (ranges.map (fun r => rangeToTs r classIdentByName))
    union ++ " | Array<" ++ union ++ ">"

/-! ### Topological linearizer: topoSortClasses -/

/-- Increment of the in-degree map at one key. -/
def bumpIndeg (indeg : String → Int) (x : String) : String → Int :=
  fun y => if y = x then indeg x + 1 else indeg y

/-- Set.add on the children map at key p: append x if absent. -/
def addChild (children : String → List String) (p x : String) :
    String → List String :=
  fun y =>
    if y = p then (if (children p).contains x then children p else children p ++ [x])
    else children y

/-- The inner loop of the edge-building pass of topoSortClasses: for each
parent of one class, when the parent exists in the Map, record the child
edge and increment the in-degree of the class. -/
def edgeStep (classes : List ClassDef) (cname : String) :
    (String → Int) × (String → List String) → List String →
      (String → Int) × (String → List String)
  | st, [] => st
  | st, p :: ps =>
      if hasClass classes p then
        edgeStep classes cname (bumpIndeg st.1 cname, addChild st.2 p cname) ps
      else edgeStep classes cname st ps

/-- The outer loop of the edge-building pass, over all classes. -/
def buildEdgesGo (classes : List ClassDef) :
    (String → Int) × (String → List String) → List ClassDef →
      (String → Int) × (String → List String)
  | st, [] => st
  | st, c :: cs => buildEdgesGo classes (edgeStep classes c.name st c.parents) cs

/-- The in-degree and children maps of topoSortClasses (every key starts at
in-degree zero with no children, as the initialisation loop sets up). -/
def buildEdges (classes : List ClassDef) :
    (String → Int) × (String → List String) :=
  buildEdgesGo classes (fun _ => (0 : Int), fun _ => []) classes

/-- One pass over the children of a dequeued class: decrement each child's
in-degree and enqueue it when the in-degree reaches zero. -/
def processChildren :
    List String → (String → Int) → List String → (String → Int) × List String
  | [], indeg, q => (indeg, q)
  | ch :: rest, indeg, q =>
      let indeg2 : String → Int := fun y => if y = ch then indeg ch - 1 else indeg y
      let q2 := if indeg2 ch = 0 then q ++ [ch] else q
      processChildren rest indeg2 q2

/-- The while loop of topoSortClasses (Kahn's algorithm).  The JS loop runs
until the queue is empty; the fuel parameter makes the recursion structural,
and the development proves that the fuel used by kahnPhase is never
exhausted, so the embedding agrees with the unbounded loop. -/
def kahnLoop (children : String → List String) :
    Nat → (String → Int) → List String → List String → List String
  | 0, _, _, out => out
  | fuel + 1, indeg, q, out =>
      match q with
      | [] => out
      | n :: rest =>
          let st := processChildren (children n) indeg rest
          kahnLoop children fuel st.1 st.2 (out ++ [n])

/-- The Kahn portion of topoSortClasses with explicit fuel. -/
def kahnPhaseWithFuel (fuel : Nat) (classes : List ClassDef) : List String :=
  let names := sortStrings (classNames classes)
  let eds := buildEdges classes
  let q0 := names.filter (fun n => eds.1 n == 0)
  kahnLoop eds.2 fuel eds.1 q0 []

/-- The Kahn portion of topoSortClasses, i.e. the contents of out when the
while loop exits. -/
def kahnPhase (classes : List ClassDef) : List String :=
  kahnPhaseWithFuel ((classNames classes).length + 1) classes

/-- topoSortClasses from the source: sorted names, Kahn's algorithm over the
resolvable parent edges, then the leftover loop appending every name not yet
emitted (classes on or below a cycle). -/
def topoSortClasses (classes : List ClassDef) : List String :=
  let names := sortStrings (classNames classes)
  let out := kahnPhase classes
  names.foldl addUnique out

/-- The occurrences of resolvable parents of a class, with multiplicity:
the parents of its definition that exist in the Map, or nothing when the
name does not resolve. -/
def resolvableParentOccs (classes : List ClassDef) (x : String) : List String :=
  match lookupClass classes x with
  | some cls => cls.parents.filter (fun p => hasClass classes p)
  | none => []

/-- The loop invariant of the Kahn phase: the emitted list and the queue
are disjoint and duplicate free and drawn from the class names; the
in-degree of every name equals its resolvable parent occurrences minus its
distinct resolvable parents already emitted; every emitted class follows
all its distinct resolvable parents; every queued class has all its
distinct resolvable parents emitted. -/
def KahnInv (classes : List ClassDef) (indeg : String → Int)
    (q out : List String) : Prop :=
  (out ++ q).Nodup ∧
    (∀ x ∈ out ++ q, x ∈ classNames classes) ∧
    (∀ x : String, indeg x = ((resolvableParentOccs classes x).length : Int) -
      (((resolvableParentOccs classes x).dedup.filter
        (fun p => out.contains p)).length : Int)) ∧
    (∀ x ∈ out, ∀ p ∈ (resolvableParentOccs classes x).dedup,
      List.Sublist [p, x] out) ∧
    (∀ x ∈ q, ∀ p ∈ (resolvableParentOccs classes x).dedup, p ∈ out)

/-- Bounded reachability along resolvable parent edges: is there a path of
at least one and at most the given number of steps. -/
def stepsReaches (classes : List ClassDef) : Nat → String → String → Bool
  | 0, _, _ => false
  | k + 1, x, y =>
      (resolvableParentOccs classes x).contains y ||
        ((resolvableParentOccs classes x).any (fun p => stepsReaches classes k p y))

/-- A class participates in a cycle of parent edges when it reaches itself
by a nonempty path; paths of length up to the number of classes suffice. -/
def onParentCycle (classes : List ClassDef) (x : String) : Bool :=
  stepsReaches classes (classNames classes).length x x

/-! ### Inherited property collection: collectAllPropsForClass -/

/-- The recursive walk of collectAllPropsForClass.  The state is the pair of
the seen set and the out set, both insertion-ordered.  As with the Kahn
loop, fuel makes the recursion structural; the characterization theorem
shows the fuel chosen below suffices for a complete traversal. -/
def walk (classes : List ClassDef) :
    Nat → String → List String × List String → List String × List String
  | 0, _, st => st
  | fuel + 1, name, st =>
      if st.1.contains name then st
      else
        let seen2 := st.1 ++ [name]
        match lookupClass classes name with
        | none => (seen2, st.2)
        | some cls =>
            let out2 := cls.properties.foldl addUnique st.2
            cls.parents.foldl (fun acc p => walk classes fuel p acc) (seen2, out2)

/-- Every name the walk can ever visit: the start name and every recorded
parent name. -/
def walkUniverse (classes : List ClassDef) (clsName : String) : List String :=
  (clsName :: (classes.map (fun c => c.parents)).flatten).dedup

/-- collectAllPropsForClass from the source: the out set of a full walk from
the given class. -/
def collectAllPropsForClass (clsName : String) (classes : List ClassDef) :
    List String :=
  (walk classes ((walkUniverse classes clsName).length + 1) clsName ([], [])).2

/-- Reachability along resolvable parent edges: the class itself and every
transitively resolvable ancestor. -/
inductive Reaches (classes : List ClassDef) : String → String → Prop
  | refl (a : String) : Reaches classes a a
  | step {a b p : String} {cls : ClassDef} : Reaches classes a b →
      lookupClass classes b = some cls → p ∈ cls.parents → Reaches classes a p

/-- A class name is fully processed in a walk state when, if it resolves,
all its parents are in the seen set and all its properties are in the out
set. -/
def Processed (classes : List ClassDef) (st : List String × List String)
    (x : String) : Prop :=
  ∀ cls, lookupClass classes x = some cls →
    (∀ p ∈ cls.parents, p ∈ st.1) ∧ (∀ pr ∈ cls.properties, pr ∈ st.2)

/-! ### Emitter fragments of generateTs -/

/-- The schema-name to identifier table built at the top of generateTs. -/
def classIdentByName (classes : List ClassDef) : List (String × String) :=
  (topoSortClasses classes).map (fun n => (n, toTsIdent n))

/-- The interface identifiers declared by the emitted output: one per class,
in linearized order. -/
def declaredIdents (classes : List ClassDef) : List String :=
  (topoSortClasses classes).map (fun n => toTsIdent n)

/-- The property field names emitted for one class by generateTs: the
collected own and inherited properties, sorted, skipping names that have no
entry in the property Map. -/
def fieldNamesFor (classes : List ClassDef) (props : List PropDef)
    (schemaName : String) : List String :=
  (sortStrings (collectAllPropsForClass schemaName classes)).filter
    (fun p => (lookupProp props p).isSome)

/-! ### Script escaping: safeJsonLdStringify -/

/-- Global single-character replacement, the model of
String.prototype.replace with a one-character global regex. -/
def replaceChar (target : Char) (rep : List Char) : List Char → List Char
  | [] => []
  | c :: rest => (if c = target then rep else [c]) ++ replaceChar target rep rest

/-- The line separator U+2028. -/
def lineSep : Char := Char.ofNat 0x2028

/-- The paragraph separator U+2029. -/
def paraSep : Char := Char.ofNat 0x2029

/-- safeJsonLdStringify from the source, modelled on the string produced by
the external JSON.stringify serializer: the five chained global replacements
that escape the angle brackets, the ampersand and the two Unicode line
separators as six-character backslash-u sequences. -/
def safeJsonLdStringify (json : String) : String :=
  String.mk
    (replaceChar paraSep "\\u2029".data
      (replaceChar lineSep "\\u2028".data
        (replaceChar '&' "\\u0026".data
          (replaceChar '>' "\\u003e".data
            (replaceChar '<' "\\u003c".data json.data)))))

/-! ### Order lemmas for the string sort -/

lemma char_eq_of_toNat_eq {a b : Char} (h : a.toNat = b.toNat) : a = b :=
  Char.eq_of_val_eq (UInt32.ext h)

lemma strLtCharList_irrefl : ∀ l, strLtCharList l l = false := by
  intro l
  induction l with
  | nil => rfl
  | cons a as ih => simp [strLtCharList, ih]

lemma strLtCharList_asymm :
    ∀ l m, strLtCharList l m = true → strLtCharList m l = true → False := by
  intro l
  induction l with
  | nil =>
    intro m h1 h2
    cases m with
    | nil => simp [strLtCharList] at h1
    | cons b bs => simp [strLtCharList] at h2
  | cons a as ih =>
    intro m h1 h2
    cases m with
    | nil => simp [strLtCharList] at h1
    | cons b bs =>
      simp only [strLtCharList] at h1 h2
      by_cases hab : a.toNat < b.toNat
      · have hba : ¬ b.toNat < a.toNat := by omega
        simp [hab, hba] at h2
      · by_cases hba : b.toNat < a.toNat
        · simp [hab, hba] at h1
        · simp [hab, hba] at h1 h2
          exact ih bs h1 h2

lemma strLtCharList_trichotomy :
    ∀ l m, strLtCharList l m = true ∨ strLtCharList m l = true ∨ l = m := by
  intro l
  induction l with
  | nil =>
    intro m
    cases m with
    | nil => right; right; rfl
    | cons b bs => left; rfl
  | cons a as ih =>
    intro m
    cases m with
    | nil => right; left; rfl
    | cons b bs =>
      by_cases hab : a.toNat < b.toNat
      · left; simp [strLtCharList, hab]
      · by_cases hba : b.toNat < a.toNat
        · right; left; simp [strLtCharList, hba]
        · have hch : a = b := char_eq_of_toNat_eq (by omega)
          subst hch
          rcases ih bs with h | h | h
          · left; simp [strLtCharList, h]
          · right; left; simp [strLtCharList, h]
          · right; right; rw [h]

lemma strLtCharList_trans :
    ∀ l m n, strLtCharList l m = true → strLtCharList m n = true →
      strLtCharList l n = true := by
  intro l
  induction l with
  | nil =>
    intro m n h1 h2
    cases m with
    | nil => simp [strLtCharList] at h1
    | cons b bs =>
      cases n with
      | nil => simp [strLtCharList] at h2
      | cons c cs => rfl
  | cons a as ih =>
    intro m n h1 h2
    cases m with
    | nil => simp [strLtCharList] at h1
    | cons b bs =>
      cases n with
      | nil => simp [strLtCharList] at h2
      | cons c cs =>
        simp only [strLtCharList] at h1 h2 ⊢
        by_cases hab : a.toNat < b.toNat
        · by_cases hbc : b.toNat < c.toNat
          · have : a.toNat < c.toNat := by omega
            simp [this]
          · by_cases hcb : c.toNat < b.toNat
            · simp [hbc, hcb] at h2
            · have hbc' : b.toNat = c.toNat := by omega
              have : a.toNat < c.toNat := by omega
              simp [this]
        · by_cases hba : b.toNat < a.toNat
          · simp [hab, hba] at h1
          · have hab' : a.toNat = b.toNat := by omega
            simp [hab, hba] at h1
            by_cases hbc : b.toNat < c.toNat
            · have : a.toNat < c.toNat := by omega
              simp [this]
            · by_cases hcb : c.toNat < b.toNat
              · simp [hbc, hcb] at h2
              · have hac : ¬ a.toNat < c.toNat := by omega
                have hca : ¬ c.toNat < a.toNat := by omega
                simp [hbc, hcb] at h2
                simp [hac, hca]
                exact ih bs cs h1 h2

lemma string_data_inj {s t : String} (h : s.data = t.data) : s = t := by
  cases s; cases t; exact congrArg String.mk h

lemma strLtCharList_not_lt_of_lt {l m : List Char}
    (h : strLtCharList l m = true) : strLtCharList m l = false := by
  cases hm : strLtCharList m l
  · rfl
  · exact (strLtCharList_asymm _ _ h hm).elim

instance : IsTotal String StrLe := by
  constructor
  intro a b
  unfold StrLe strLeb
  rcases strLtCharList_trichotomy a.data b.data with h | h | h
  · left
    rw [strLtCharList_not_lt_of_lt h]
    rfl
  · right
    rw [strLtCharList_not_lt_of_lt h]
    rfl
  · left
    rw [h, strLtCharList_irrefl]
    rfl

instance : IsTrans String StrLe := by
  constructor
  intro a b c hab hbc
  unfold StrLe strLeb at hab hbc ⊢
  by_cases hca : strLtCharList c.data a.data = true
  · exfalso
    rcases strLtCharList_trichotomy a.data b.data with h1 | h1 | h1
    · rcases strLtCharList_trichotomy b.data c.data with h2 | h2 | h2
      · exact strLtCharList_asymm _ _ (strLtCharList_trans _ _ _ h1 h2) hca
      · simp [h2] at hbc
      · rw [h2] at h1
        exact strLtCharList_asymm _ _ h1 hca
    · simp [h1] at hab
    · rw [h1] at hca
      rcases strLtCharList_trichotomy b.data c.data with h2 | h2 | h2
      · exact strLtCharList_asymm _ _ h2 hca
      · simp [h2] at hbc
      · rw [h2] at hca
        rw [strLtCharList_irrefl] at hca
        exact Bool.false_ne_true hca
  · simp [hca]

instance : IsAntisymm String StrLe := by
  constructor
  intro a b hab hba
  unfold StrLe strLeb at hab hba
  rcases strLtCharList_trichotomy a.data b.data with h | h | h
  · simp [h] at hba
  · simp [h] at hab
  · exact string_data_inj h


lemma sortStrings_perm (l : List String) : (sortStrings l).Perm l :=
  List.perm_insertionSort StrLe l

lemma sortStrings_sorted (l : List String) : List.Sorted StrLe (sortStrings l) :=
  List.sorted_insertionSort StrLe l

lemma mem_sortStrings {x : String} {l : List String} :
    x ∈ sortStrings l ↔ x ∈ l := (sortStrings_perm l).mem_iff

lemma sortStrings_nodup {l : List String} (h : l.Nodup) : (sortStrings l).Nodup :=
  ((sortStrings_perm l).nodup_iff).mpr h

lemma sortStrings_eq_of_same_mem {l m : List String}
    (hl : l.Nodup) (hm : m.Nodup) (h : ∀ x, x ∈ l ↔ x ∈ m) :
    sortStrings l = sortStrings m := by
  apply List.eq_of_perm_of_sorted _ (sortStrings_sorted l) (sortStrings_sorted m)
  have h1 : (sortStrings l).Perm l := sortStrings_perm l
  have h2 : (sortStrings m).Perm m := sortStrings_perm m
  have : l.Perm m := by
    rw [List.perm_ext_iff_of_nodup hl hm]
    exact h
  exact h1.trans (this.trans h2.symm)

/-! ### Claim C8: getObjects -/

lemma getObjects_map_filter (l : List Quad) :
    ((l.map (fun q =>
        if isNamedNode q.object || isLiteral q.object then q.object.value else ""))
      |>.filter (fun v => !(v == ""))) =
      (l.filter (fun q =>
          (isNamedNode q.object || isLiteral q.object) && !(q.object.value == ""))).map
        (fun q => q.object.value) := by
  rw [List.filter_map]
  have hfil : l.filter ((fun v => !(v == "")) ∘ (fun q =>
        if isNamedNode q.object || isLiteral q.object then q.object.value else ""))
      = l.filter (fun q =>
          (isNamedNode q.object || isLiteral q.object) && !(q.object.value == "")) := by
    apply List.filter_congr
    intro q _
    cases hn : (isNamedNode q.object || isLiteral q.object)
    · simp [Function.comp, hn]
    · simp [Function.comp, hn]
  rw [hfil]
  apply List.map_congr_left
  intro q hq
  have hcond := (List.mem_filter.mp hq).2
  cases hn : (isNamedNode q.object || isLiteral q.object)
  · rw [hn] at hcond
    simp at hcond
  · simp [hn]

/-- Claim C8, counterexample: a matching quad whose object is a literal with
the empty value contributes no entry to getObjects, although the claim
demands that every literal object contribute its term value: on this store
the claimed output has one element and the actual output none. -/
theorem c8_empty_literal_counterexample :
    getObjects
        [⟨Term.namedNode "s", Term.namedNode "p", Term.literal "", Term.defaultGraph⟩]
        "s" "p" = [] ∧
      ((getQuads
          [⟨Term.namedNode "s", Term.namedNode "p", Term.literal "", Term.defaultGraph⟩]
          "s" "p").filter
        (fun q => isNamedNode q.object || isLiteral q.object)).map
          (fun q => q.object.value) = [""] := by
  constructor
  · rfl
  · rfl

/-- Claim C8 (amended): for every store, subject and predicate, getObjects
returns exactly the term values of the matching quads whose object is a
named node or a literal with a nonempty value, in store order; blank nodes,
other term kinds, and empty-valued terms are silently omitted. -/
theorem c8_getObjects_named_literal_values (store : List Quad)
    (subject predicate : String) :
    getObjects store subject predicate =
      ((getQuads store subject predicate).filter (fun q =>
          (isNamedNode q.object || isLiteral q.object) && !(q.object.value == ""))).map
        (fun q => q.object.value) := by
  unfold getObjects
  exact getObjects_map_filter (getQuads store subject predicate)

/-! ### Claim C9: safeJsonLdStringify -/

lemma mem_replaceChar {b target : Char} {rep : List Char} :
    ∀ {l : List Char}, b ∈ replaceChar target rep l → b ∈ rep ∨ (b ∈ l ∧ b ≠ target) := by
  intro l
  induction l with
  | nil => intro h; simp [replaceChar] at h
  | cons a rest ih =>
    intro h
    simp only [replaceChar, List.mem_append] at h
    rcases h with h | h
    · by_cases ha : a = target
      · rw [if_pos ha] at h
        exact Or.inl h
      · rw [if_neg ha] at h
        simp only [List.mem_singleton] at h
        subst h
        exact Or.inr ⟨List.mem_cons_self _ _, ha⟩
    · rcases ih h with h1 | ⟨h1, h2⟩
      · exact Or.inl h1
      · exact Or.inr ⟨List.mem_cons_of_mem _ h1, h2⟩

lemma not_mem_replaceChar {b target : Char} {rep l : List Char}
    (hrep : b ∉ rep) (hl : b ∉ l ∨ b = target) : b ∉ replaceChar target rep l := by
  intro hmem
  rcases mem_replaceChar hmem with h | ⟨h1, h2⟩
  · exact hrep h
  · rcases hl with h3 | h3
    · exact h3 h1
    · exact h2 h3

/-- Claim C9: for every serialized value, the string returned by
safeJsonLdStringify contains no occurrence of the characters left angle
bracket, right angle bracket, ampersand, U+2028 or U+2029, each being
replaced by its backslash-u escape, so the result cannot terminate a
script element. -/
theorem c9_safeJsonLdStringify_no_specials (json : String) :
    ∀ c ∈ (safeJsonLdStringify json).data,
      c ≠ '<' ∧ c ≠ '>' ∧ c ≠ '&' ∧ c ≠ lineSep ∧ c ≠ paraSep := by
  intro c hc
  have hc5 : c ∈ replaceChar paraSep "\\u2029".data
      (replaceChar lineSep "\\u2028".data
        (replaceChar '&' "\\u0026".data
          (replaceChar '>' "\\u003e".data
            (replaceChar '<' "\\u003c".data json.data)))) := hc
  have n1 : '<' ∉ replaceChar '<' "\\u003c".data json.data :=
    not_mem_replaceChar (by decide) (Or.inr rfl)
  have n2 : '<' ∉ replaceChar '>' "\\u003e".data
      (replaceChar '<' "\\u003c".data json.data) :=
    not_mem_replaceChar (by decide) (Or.inl n1)
  have n3 : '<' ∉ replaceChar '&' "\\u0026".data
      (replaceChar '>' "\\u003e".data
        (replaceChar '<' "\\u003c".data json.data)) :=
    not_mem_replaceChar (by decide) (Or.inl n2)
  have n4 : '<' ∉ replaceChar lineSep "\\u2028".data
      (replaceChar '&' "\\u0026".data
        (replaceChar '>' "\\u003e".data
          (replaceChar '<' "\\u003c".data json.data))) :=
    not_mem_replaceChar (by decide) (Or.inl n3)
  have n5 : '<' ∉ replaceChar paraSep "\\u2029".data
      (replaceChar lineSep "\\u2028".data
        (replaceChar '&' "\\u0026".data
          (replaceChar '>' "\\u003e".data
            (replaceChar '<' "\\u003c".data json.data)))) :=
    not_mem_replaceChar (by decide) (Or.inl n4)
  have m2 : '>' ∉ replaceChar '>' "\\u003e".data
      (replaceChar '<' "\\u003c".data json.data) :=
    not_mem_replaceChar (by decide) (Or.inr rfl)
  have m3 : '>' ∉ replaceChar '&' "\\u0026".data
      (replaceChar '>' "\\u003e".data
        (replaceChar '<' "\\u003c".data json.data)) :=
    not_mem_replaceChar (by decide) (Or.inl m2)
  have m4 : '>' ∉ replaceChar lineSep "\\u2028".data
      (replaceChar '&' "\\u0026".data
        (replaceChar '>' "\\u003e".data
          (replaceChar '<' "\\u003c".data json.data))) :=
    not_mem_replaceChar (by decide) (Or.inl m3)
  have m5 : '>' ∉ replaceChar paraSep "\\u2029".data
      (replaceChar lineSep "\\u2028".data
        (replaceChar '&' "\\u0026".data
          (replaceChar '>' "\\u003e".data
            (replaceChar '<' "\\u003c".data json.data)))) :=
    not_mem_replaceChar (by decide) (Or.inl m4)
  have a3 : '&' ∉ replaceChar '&' "\\u0026".data
      (replaceChar '>' "\\u003e".data
        (replaceChar '<' "\\u003c".data json.data)) :=
    not_mem_replaceChar (by decide) (Or.inr rfl)
  have a4 : '&' ∉ replaceChar lineSep "\\u2028".data
      (replaceChar '&' "\\u0026".data
        (replaceChar '>' "\\u003e".data
          (replaceChar '<' "\\u003c".data json.data))) :=
    not_mem_replaceChar (by decide) (Or.inl a3)
  have a5 : '&' ∉ replaceChar paraSep "\\u2029".data
      (replaceChar lineSep "\\u2028".data
        (replaceChar '&' "\\u0026".data
          (replaceChar '>' "\\u003e".data
            (replaceChar '<' "\\u003c".data json.data)))) :=
    not_mem_replaceChar (by decide) (Or.inl a4)
  have l4 : lineSep ∉ replaceChar lineSep "\\u2028".data
      (replaceChar '&' "\\u0026".data
        (replaceChar '>' "\\u003e".data
          (replaceChar '<' "\\u003c".data json.data))) :=
    not_mem_replaceChar (by decide) (Or.inr rfl)
  have l5 : lineSep ∉ replaceChar paraSep "\\u2029".data
      (replaceChar lineSep "\\u2028".data
        (replaceChar '&' "\\u0026".data
          (replaceChar '>' "\\u003e".data
            (replaceChar '<' "\\u003c".data json.data)))) :=
    not_mem_replaceChar (by decide) (Or.inl l4)
  have p5 : paraSep ∉ replaceChar paraSep "\\u2029".data
      (replaceChar lineSep "\\u2028".data
        (replaceChar '&' "\\u0026".data
          (replaceChar '>' "\\u003e".data
            (replaceChar '<' "\\u003c".data json.data)))) :=
    not_mem_replaceChar (by decide) (Or.inr rfl)
  refine ⟨?_, ?_, ?_, ?_, ?_⟩
  · intro h
    exact n5 (h ▸ hc5)
  · intro h
    exact m5 (h ▸ hc5)
  · intro h
    exact a5 (h ▸ hc5)
  · intro h
    exact l5 (h ▸ hc5)
  · intro h
    exact p5 (h ▸ hc5)

/-- Witness for claim C9 at a concrete serialized string. -/
theorem c9_safeJsonLdStringify_no_specials_witness :
    '\\' ∈ (safeJsonLdStringify "<").data ∧
      ('\\' ≠ '<' ∧ '\\' ≠ '>' ∧ '\\' ≠ '&' ∧ '\\' ≠ lineSep ∧ '\\' ≠ paraSep) :=
  ⟨by decide, c9_safeJsonLdStringify_no_specials "<" '\\' (by decide)⟩

/-! ### Claims C3 and C4: the identifier sanitizer -/

lemma string_mk_data (s : String) : String.mk s.data = s := by
  cases s
  rfl

lemma string_data_append (s t : String) : (s ++ t).data = s.data ++ t.data := by
  cases s
  cases t
  rfl

lemma identChar_of_identStartChar {c : Char} (h : identStartChar c = true) :
    identChar c = true := by
  simp only [identStartChar, decide_eq_true_eq] at h
  simp only [identChar, decide_eq_true_eq]
  omega

lemma digitChar_eq_false_of_identStartChar {c : Char} (h : identStartChar c = true) :
    digitChar c = false := by
  simp only [identStartChar, decide_eq_true_eq] at h
  simp only [digitChar, decide_eq_false_iff_not]
  omega

lemma reserved_no_trailing_underscore :
    ∀ w ∈ TS_RESERVED, w.data.getLast? ≠ some '_' := by
  decide

lemma chars_underscore_append {t : String}
    (ht : ∀ d ∈ t.data, identChar d = true) :
    ∀ d ∈ ("_" ++ t).data, identChar d = true := by
  intro d hd
  rw [string_data_append] at hd
  rcases List.mem_append.mp hd with h | h
  · simp only [List.mem_singleton] at h
    rw [h]
    decide
  · exact ht d h

lemma sanitizeChars_chars (s : String) :
    ∀ c ∈ (sanitizeChars s).data, identChar c = true := by
  intro c hc
  rcases List.mem_map.mp hc with ⟨a, _, ha⟩
  by_cases h : identChar a = true
  · rw [if_pos h] at ha
    rw [ha] at h
    exact h
  · rw [if_neg h] at ha
    rw [← ha]
    decide

lemma prependIfDigit_chars {t : String}
    (ht : ∀ d ∈ t.data, identChar d = true) :
    ∀ d ∈ (prependIfDigit t).data, identChar d = true := by
  unfold prependIfDigit
  split
  · exact chars_underscore_append ht
  · exact ht

lemma prependIfBadStart_chars {t : String}
    (ht : ∀ d ∈ t.data, identChar d = true) :
    ∀ d ∈ (prependIfBadStart t).data, identChar d = true := by
  unfold prependIfBadStart
  split
  · exact ht
  · exact chars_underscore_append ht

lemma suffixIfReserved_chars {t : String}
    (ht : ∀ d ∈ t.data, identChar d = true) :
    ∀ d ∈ (suffixIfReserved t).data, identChar d = true := by
  unfold suffixIfReserved
  split
  · intro d hd
    rw [string_data_append] at hd
    rcases List.mem_append.mp hd with h | h
    · exact ht d h
    · simp only [List.mem_singleton] at h
      rw [h]
      decide
  · exact ht

lemma toTsIdent_chars (s : String) :
    ∀ c ∈ (toTsIdent s).data, identChar c = true :=
  suffixIfReserved_chars (prependIfBadStart_chars (prependIfDigit_chars
    (sanitizeChars_chars s)))

lemma prependIfBadStart_starts (t : String) :
    startsWithIdentStart (prependIfBadStart t) = true := by
  unfold prependIfBadStart
  split
  next h => exact h
  next h =>
    unfold startsWithIdentStart
    rw [string_data_append]
    show identStartChar '_' = true
    decide

lemma suffixIfReserved_starts {t : String}
    (h : startsWithIdentStart t = true) :
    startsWithIdentStart (suffixIfReserved t) = true := by
  unfold suffixIfReserved
  split
  · unfold startsWithIdentStart at h ⊢
    rw [string_data_append]
    cases ht : t.data with
    | nil =>
        rw [ht] at h
        exact absurd h (by decide)
    | cons c rest =>
        rw [ht] at h
        exact h
  · exact h

lemma toTsIdent_starts (s : String) :
    startsWithIdentStart (toTsIdent s) = true :=
  suffixIfReserved_starts (prependIfBadStart_starts _)

lemma toTsIdent_not_reserved (s : String) :
    TS_RESERVED.contains (toTsIdent s) = false := by
  unfold toTsIdent suffixIfReserved
  split
  next hres =>
    by_contra hmem
    simp only [Bool.not_eq_false] at hmem
    have hmem' := List.mem_of_elem_eq_true hmem
    have hlast := reserved_no_trailing_underscore _ hmem'
    apply hlast
    rw [string_data_append]
    exact List.getLast?_concat _
  next hres =>
    simp only [Bool.not_eq_true] at hres
    exact hres

lemma isValidTsIdentStr_of_parts {t : String}
    (hc : ∀ c ∈ t.data, identChar c = true)
    (hs : startsWithIdentStart t = true)
    (hr : TS_RESERVED.contains t = false) :
    isValidTsIdentStr t = true := by
  unfold isValidTsIdentStr
  unfold startsWithIdentStart at hs
  rw [hr]
  cases ht : t.data with
  | nil =>
      rw [ht] at hs
      exact absurd hs (by decide)
  | cons c rest =>
      rw [ht] at hs
      have hs' : identStartChar c = true := hs
      have hcall : rest.all identChar = true := by
        rw [List.all_eq_true]
        intro d hd
        exact hc d (by rw [ht]; exact List.mem_cons_of_mem _ hd)
      simp [hs', hcall]

/-- Claim C3: the sanitizer is total and always produces a syntactically
valid TypeScript identifier that is not a reserved word; in particular the
three documented examples hold. -/
theorem c3_toTsIdent_total_valid :
    (∀ s : String, isValidTsIdentStr (toTsIdent s) = true) ∧
      toTsIdent "3DModel" = "_3DModel" ∧
      toTsIdent "Some-Thing" = "Some_Thing" ∧
      toTsIdent "type" = "type_" := by
  refine ⟨?_, by decide, by decide, by decide⟩
  intro s
  exact isValidTsIdentStr_of_parts (toTsIdent_chars s) (toTsIdent_starts s)
    (toTsIdent_not_reserved s)

lemma startsWithDigit_eq_false_of_starts {t : String}
    (h : startsWithIdentStart t = true) : startsWithDigit t = false := by
  unfold startsWithIdentStart at h
  unfold startsWithDigit
  cases ht : t.data with
  | nil => rfl
  | cons c rest =>
      rw [ht] at h
      exact digitChar_eq_false_of_identStartChar h

lemma toTsIdent_fixed {t : String}
    (hc : ∀ c ∈ t.data, identChar c = true)
    (hs : startsWithIdentStart t = true)
    (hr : TS_RESERVED.contains t = false) :
    toTsIdent t = t := by
  have e1 : sanitizeChars t = t := by
    unfold sanitizeChars
    have heach : ∀ c ∈ t.data, (if identChar c then c else '_') = c := by
      intro c hmem
      rw [if_pos (hc c hmem)]
    rw [List.map_congr_left heach, List.map_id', string_mk_data]
  have e2 : prependIfDigit t = t := by
    simp [prependIfDigit, startsWithDigit_eq_false_of_starts hs]
  have e3 : prependIfBadStart t = t := by
    simp [prependIfBadStart, hs]
  have e4 : suffixIfReserved t = t := by
    unfold suffixIfReserved
    rw [hr]
    rfl
  unfold toTsIdent
  rw [e1, e2, e3, e4]

/-- Claim C4: the sanitizer is idempotent: applying it to its own output
returns that output unchanged, for every input string. -/
theorem c4_toTsIdent_idempotent (s : String) :
    toTsIdent (toTsIdent s) = toTsIdent s :=
  toTsIdent_fixed (toTsIdent_chars s) (toTsIdent_starts s) (toTsIdent_not_reserved s)

/-! ### Claim C7: empty range list -/

/-- Claim C7: a property whose resolved range list is empty maps to the
unknown type; the mapper is total, so no error is possible. -/
theorem c7_propToTs_empty_ranges (prop : PropDef) (tbl : List (String × String))
    (h : prop.ranges = []) : propToTs prop tbl = "unknown" := by
  unfold propToTs
  rw [h]
  rfl

/-- Witness for claim C7 at a concrete property. -/
theorem c7_propToTs_empty_ranges_witness :
    (PropDef.mk "sameAs" "https://schema.org/sameAs" [] []).ranges = [] ∧
      propToTs (PropDef.mk "sameAs" "https://schema.org/sameAs" [] []) [] = "unknown" :=
  ⟨rfl, c7_propToTs_empty_ranges (PropDef.mk "sameAs" "https://schema.org/sameAs" [] []) [] rfl⟩

/-! ### Claim C6: the property type mapper -/

lemma mem_foldl_addUnique (l : List String) :
    ∀ (acc : List String) (x : String),
      x ∈ l.foldl addUnique acc ↔ x ∈ acc ∨ x ∈ l := by
  induction l with
  | nil =>
      intro acc x
      simp
  | cons r rest ih =>
      intro acc x
      rw [List.foldl_cons, ih]
      unfold addUnique
      by_cases hr : acc.contains r = true
      · rw [if_pos hr]
        have hmem : r ∈ acc := by
          rw [← List.elem_iff]
          exact hr
        constructor
        · rintro (h | h)
          · exact Or.inl h
          · exact Or.inr (List.mem_cons_of_mem _ h)
        · rintro (h | h)
          · exact Or.inl h
          · rcases List.mem_cons.mp h with h | h
            · rw [h]
              exact Or.inl hmem
            · exact Or.inr h
      · rw [if_neg hr]
        constructor
        · rintro (h | h)
          · rcases List.mem_append.mp h with h | h
            · exact Or.inl h
            · simp only [List.mem_singleton] at h
              rw [h]
              exact Or.inr (List.mem_cons_self _ _)
          · exact Or.inr (List.mem_cons_of_mem _ h)
        · rintro (h | h)
          · exact Or.inl (List.mem_append.mpr (Or.inl h))
          · rcases List.mem_cons.mp h with h | h
            · exact Or.inl (List.mem_append.mpr (Or.inr (by simp [h])))
            · exact Or.inr h

lemma nodup_foldl_addUnique (l : List String) :
    ∀ acc : List String, acc.Nodup → (l.foldl addUnique acc).Nodup := by
  induction l with
  | nil =>
      intro acc h
      exact h
  | cons r rest ih =>
      intro acc h
      rw [List.foldl_cons]
      apply ih
      unfold addUnique
      by_cases hr : acc.contains r = true
      · rw [if_pos hr]
        exact h
      · rw [if_neg hr]
        apply List.Nodup.append h (List.nodup_singleton r)
        intro a ha hb
        simp only [List.mem_singleton] at hb
        rw [hb] at ha
        exact hr (List.elem_iff.mpr ha)

lemma mem_dedupFirst {x : String} {l : List String} :
    x ∈ dedupFirst l ↔ x ∈ l := by
  unfold dedupFirst
  rw [mem_foldl_addUnique]
  simp

lemma nodup_dedupFirst (l : List String) : (dedupFirst l).Nodup :=
  nodup_foldl_addUnique l [] List.nodup_nil

/-- Claim C6: for a property with a nonempty range list, the mapper first
deduplicates and sorts the range names (so the result is independent of the
order and multiplicity of the recorded ranges), maps each range and returns
the union of the alternatives together with an array of that union; a
property whose only range is Text maps to string or array of string. -/
theorem c6_propToTs_sorted_union :
    (∀ (prop : PropDef) (tbl : List (String × String)), prop.ranges ≠ [] →
        propToTs prop tbl =
          String.intercalate " | "
              ((sortStrings (dedupFirst prop.ranges)).map (fun r => rangeToTs r tbl)) ++
            " | Array<" ++
            String.intercalate " | "
              ((sortStrings (dedupFirst prop.ranges)).map (fun r => rangeToTs r tbl)) ++
            ">") ∧
      (∀ l : List String, (sortStrings (dedupFirst l)).Nodup ∧
          List.Sorted StrLe (sortStrings (dedupFirst l)) ∧
          (∀ x, x ∈ sortStrings (dedupFirst l) ↔ x ∈ l)) ∧
      (∀ (p1 p2 : PropDef) (tbl : List (String × String)),
          (∀ x, x ∈ p1.ranges ↔ x ∈ p2.ranges) →
          propToTs p1 tbl = propToTs p2 tbl) ∧
      propToTs (PropDef.mk "name" "https://schema.org/name" ["Person"] ["Text"]) [] =
        "string | Array<string>" := by
  refine ⟨?_, ?_, ?_, by decide⟩
  · intro prop tbl h
    unfold propToTs
    have hne : (sortStrings (dedupFirst prop.ranges)).length ≠ 0 := by
      intro hlen
      have hnil := List.eq_nil_of_length_eq_zero hlen
      rcases List.exists_mem_of_ne_nil _ h with ⟨x, hx⟩
      have hx2 : x ∈ sortStrings (dedupFirst prop.ranges) :=
        mem_sortStrings.mpr (mem_dedupFirst.mpr hx)
      rw [hnil] at hx2
      exact absurd hx2 (List.not_mem_nil x)
    rw [if_neg hne]
  · intro l
    exact ⟨sortStrings_nodup (nodup_dedupFirst l), sortStrings_sorted _,
      fun x => mem_sortStrings.trans mem_dedupFirst⟩
  · intro p1 p2 tbl hmem
    unfold propToTs
    have heq : sortStrings (dedupFirst p1.ranges) = sortStrings (dedupFirst p2.ranges) :=
      sortStrings_eq_of_same_mem (nodup_dedupFirst _) (nodup_dedupFirst _)
        (fun x => by rw [mem_dedupFirst, mem_dedupFirst]; exact hmem x)
    rw [heq]

/-- Witness for claim C6: order independence at two concrete properties and
the concrete Text mapping. -/
theorem c6_propToTs_sorted_union_witness :
    propToTs (PropDef.mk "knows" "i" [] ["Person", "Text", "Person"]) [] =
        propToTs (PropDef.mk "knows" "i" [] ["Text", "Person"]) [] ∧
      propToTs (PropDef.mk "name" "https://schema.org/name" ["Person"] ["Text"]) [] =
        "string | Array<string>" :=
  ⟨c6_propToTs_sorted_union.2.2.1 _ _ []
      (by intro x; simp only [List.mem_cons, List.not_mem_nil, or_false]; tauto),
    c6_propToTs_sorted_union.2.2.2⟩

/-! ### Claim C10: the missing-range fallback of rangeToTs -/

/-- Claim C10, counterexample to the never-declared part: with the single
class Some-Thing, the range name Some_Thing is not primitive and has no
entry in the identifier table, so the fallback emits a reference to the
sanitized identifier Some_Thing, yet that identifier is exactly the one the
generated output declares for the class Some-Thing. -/
theorem c10_fallback_collides_with_declared :
    rangeToTs "Some_Thing" (classIdentByName [ClassDef.mk "Some-Thing" "iri" [] []]) =
        "Some_Thing | string" ∧
      lookupIdent (classIdentByName [ClassDef.mk "Some-Thing" "iri" [] []])
          "Some_Thing" = none ∧
      "Some_Thing" ∉ primitiveRangeNames ∧
      toTsIdent "Some_Thing" ∈ declaredIdents [ClassDef.mk "Some-Thing" "iri" [] []] := by
  refine ⟨by decide, by decide, by decide, by decide⟩

/-- Claim C10 (amended): a range name that is not primitive and has no
table entry maps to the sanitized range name union plain string, never an
error or the unknown type; the referenced identifier is declared in the
generated output exactly when some emitted class sanitizes to the same
identifier. -/
theorem c10_rangeToTs_fallback (rangeName : String) (tbl : List (String × String))
    (hprim : rangeName ∉ primitiveRangeNames)
    (hlook : lookupIdent tbl rangeName = none) :
    rangeToTs rangeName tbl = toTsIdent rangeName ++ " | string" ∧
      ∀ classes : List ClassDef,
        (toTsIdent rangeName ∈ declaredIdents classes ↔
          ∃ n ∈ topoSortClasses classes, toTsIdent n = toTsIdent rangeName) := by
  constructor
  · simp only [primitiveRangeNames, List.mem_cons, List.not_mem_nil, or_false,
      not_or] at hprim
    obtain ⟨h1, h2, h3, h4, h5, h6, h7, h8, h9⟩ := hprim
    unfold rangeToTs
    rw [if_neg (by tauto), if_neg h3, if_neg (by tauto), if_neg (by tauto), hlook]
    rfl
  · intro classes
    unfold declaredIdents
    rw [List.mem_map]

/-- Witness for the amended claim C10 at a concrete range name. -/
theorem c10_rangeToTs_fallback_witness :
    rangeToTs "Audiobook" [] = toTsIdent "Audiobook" ++ " | string" ∧
      ∀ classes : List ClassDef,
        (toTsIdent "Audiobook" ∈ declaredIdents classes ↔
          ∃ n ∈ topoSortClasses classes, toTsIdent n = toTsIdent "Audiobook") :=
  c10_rangeToTs_fallback "Audiobook" [] (by decide) rfl


/-! ### Claim C5: walk lemmas -/

lemma lookupClass_mem {classes : List ClassDef} {n : String} {cls : ClassDef}
    (h : lookupClass classes n = some cls) : cls ∈ classes :=
  List.mem_of_find?_eq_some h

lemma lookupClass_name {classes : List ClassDef} {n : String} {cls : ClassDef}
    (h : lookupClass classes n = some cls) : cls.name = n := by
  have := List.find?_some h
  simpa using this

lemma Reaches_trans {classes : List ClassDef} {a b c : String}
    (hab : Reaches classes a b) (hbc : Reaches classes b c) :
    Reaches classes a c := by
  induction hbc with
  | refl => exact hab
  | step _ hlook hmem ih => exact Reaches.step ih hlook hmem

lemma subset_foldl_addUnique (l acc : List String) :
    acc ⊆ l.foldl addUnique acc := by
  intro x hx
  exact (mem_foldl_addUnique l acc x).mpr (Or.inl hx)

lemma mem_foldl_addUnique_of_mem {l : List String} (acc : List String) {x : String}
    (hx : x ∈ l) : x ∈ l.foldl addUnique acc :=
  (mem_foldl_addUnique l acc x).mpr (Or.inr hx)

lemma foldl_pair_mono {f : String → List String × List String → List String × List String}
    (hf : ∀ p st, st.1 ⊆ (f p st).1 ∧ st.2 ⊆ (f p st).2) :
    ∀ (l : List String) (st : List String × List String),
      st.1 ⊆ (l.foldl (fun acc p => f p acc) st).1 ∧
        st.2 ⊆ (l.foldl (fun acc p => f p acc) st).2 := by
  intro l
  induction l with
  | nil => intro st; exact ⟨List.Subset.refl _, List.Subset.refl _⟩
  | cons p ps ih =>
      intro st
      rw [List.foldl_cons]
      have h1 := hf p st
      have h2 := ih (f p st)
      exact ⟨h1.1.trans h2.1, h1.2.trans h2.2⟩

lemma foldl_pair_preserve {f : String → List String × List String → List String × List String}
    {P : List String × List String → Prop}
    (hf : ∀ p st, P st → P (f p st)) :
    ∀ (l : List String) (st : List String × List String),
      P st → P (l.foldl (fun acc p => f p acc) st) := by
  intro l
  induction l with
  | nil => intro st h; exact h
  | cons p ps ih =>
      intro st h
      rw [List.foldl_cons]
      exact ih (f p st) (hf p st h)

lemma walk_mono (classes : List ClassDef) :
    ∀ (fuel : Nat) (name : String) (st : List String × List String),
      st.1 ⊆ (walk classes fuel name st).1 ∧ st.2 ⊆ (walk classes fuel name st).2 := by
  intro fuel
  induction fuel with
  | zero => intro name st; exact ⟨List.Subset.refl _, List.Subset.refl _⟩
  | succ fuel ih =>
      intro name st
      simp only [walk]
      split
      · exact ⟨List.Subset.refl _, List.Subset.refl _⟩
      · split
        · exact ⟨List.subset_append_left _ _, List.Subset.refl _⟩
        next cls hlook =>
          have h := foldl_pair_mono (fun p st => ih p st) cls.parents
            (st.1 ++ [name], cls.properties.foldl addUnique st.2)
          exact ⟨(List.subset_append_left _ _).trans h.1,
            (subset_foldl_addUnique _ _).trans h.2⟩

lemma walk_nodup_out (classes : List ClassDef) :
    ∀ (fuel : Nat) (name : String) (st : List String × List String),
      st.2.Nodup → (walk classes fuel name st).2.Nodup := by
  intro fuel
  induction fuel with
  | zero => intro name st h; exact h
  | succ fuel ih =>
      intro name st h
      simp only [walk]
      split
      · exact h
      · split
        · exact h
        next cls hlook =>
          have hstep : ∀ (p : String) (st2 : List String × List String),
              st2.2.Nodup → (walk classes fuel p st2).2.Nodup := fun p st2 => ih p st2
          exact foldl_pair_preserve (P := fun st2 => st2.2.Nodup) hstep cls.parents
            (st.1 ++ [name], cls.properties.foldl addUnique st.2)
            (nodup_foldl_addUnique _ _ h)

lemma walk_visits (classes : List ClassDef) {fuel : Nat} (hf : 0 < fuel)
    (name : String) (st : List String × List String) :
    name ∈ (walk classes fuel name st).1 := by
  cases fuel with
  | zero => exact absurd hf (Nat.lt_irrefl 0)
  | succ fuel =>
      simp only [walk]
      split
      next h => exact List.elem_iff.mp h
      next h =>
        split
        · exact List.mem_append.mpr (Or.inr (by simp))
        next cls hlook =>
          apply (foldl_pair_mono (fun p st2 => walk_mono classes fuel p st2)
            cls.parents _).1
          exact List.mem_append.mpr (Or.inr (by simp))


lemma walk_sound_fold (classes : List ClassDef) (fuel : Nat) (name : String)
    (hwalk : ∀ (q : String) (st : List String × List String),
      (∀ x ∈ (walk classes fuel q st).1, x ∈ st.1 ∨ Reaches classes q x) ∧
      (∀ pr ∈ (walk classes fuel q st).2, pr ∈ st.2 ∨
        ∃ a cls, Reaches classes q a ∧ lookupClass classes a = some cls ∧
          pr ∈ cls.properties)) :
    ∀ (l : List String), (∀ p ∈ l, Reaches classes name p) →
      ∀ st : List String × List String,
        (∀ x ∈ (l.foldl (fun acc p => walk classes fuel p acc) st).1,
          x ∈ st.1 ∨ Reaches classes name x) ∧
        (∀ pr ∈ (l.foldl (fun acc p => walk classes fuel p acc) st).2,
          pr ∈ st.2 ∨ ∃ a cls, Reaches classes name a ∧
            lookupClass classes a = some cls ∧ pr ∈ cls.properties) := by
  intro l
  induction l with
  | nil =>
      intro _ st
      exact ⟨fun x hx => Or.inl hx, fun pr hpr => Or.inl hpr⟩
  | cons p ps ih =>
      intro hl st
      rw [List.foldl_cons]
      have hp : Reaches classes name p := hl p (List.mem_cons_self _ _)
      have hps : ∀ q ∈ ps, Reaches classes name q :=
        fun q hq => hl q (List.mem_cons_of_mem _ hq)
      have hstep := hwalk p st
      have hrest := ih hps (walk classes fuel p st)
      constructor
      · intro x hx
        rcases hrest.1 x hx with h | h
        · rcases hstep.1 x h with h2 | h2
          · exact Or.inl h2
          · exact Or.inr (Reaches_trans hp h2)
        · exact Or.inr h
      · intro pr hpr
        rcases hrest.2 pr hpr with h | h
        · rcases hstep.2 pr h with h2 | ⟨a, cls, hr, hlo, hm⟩
          · exact Or.inl h2
          · exact Or.inr ⟨a, cls, Reaches_trans hp hr, hlo, hm⟩
        · exact Or.inr h

lemma walk_sound (classes : List ClassDef) :
    ∀ (fuel : Nat) (name : String) (st : List String × List String),
      (∀ x ∈ (walk classes fuel name st).1, x ∈ st.1 ∨ Reaches classes name x) ∧
      (∀ pr ∈ (walk classes fuel name st).2, pr ∈ st.2 ∨
        ∃ a cls, Reaches classes name a ∧ lookupClass classes a = some cls ∧
          pr ∈ cls.properties) := by
  intro fuel
  induction fuel with
  | zero =>
      intro name st
      exact ⟨fun x hx => Or.inl hx, fun pr hpr => Or.inl hpr⟩
  | succ fuel ih =>
      intro name st
      simp only [walk]
      split
      · exact ⟨fun x hx => Or.inl hx, fun pr hpr => Or.inl hpr⟩
      · split
        · constructor
          · intro x hx
            rcases List.mem_append.mp hx with h | h
            · exact Or.inl h
            · simp only [List.mem_singleton] at h
              rw [h]
              exact Or.inr (Reaches.refl name)
          · intro pr hpr
            exact Or.inl hpr
        next cls hlook =>
          have hl : ∀ p ∈ cls.parents, Reaches classes name p :=
            fun p hp => Reaches.step (Reaches.refl name) hlook hp
          have hfold := walk_sound_fold classes fuel name ih cls.parents hl
            (st.1 ++ [name], cls.properties.foldl addUnique st.2)
          constructor
          · intro x hx
            rcases hfold.1 x hx with h | h
            · rcases List.mem_append.mp h with h2 | h2
              · exact Or.inl h2
              · simp only [List.mem_singleton] at h2
                rw [h2]
                exact Or.inr (Reaches.refl name)
            · exact Or.inr h
          · intro pr hpr
            rcases hfold.2 pr hpr with h | h
            · rcases (mem_foldl_addUnique _ _ pr).mp h with h2 | h2
              · exact Or.inl h2
              · exact Or.inr ⟨name, cls, Reaches.refl name, hlook, h2⟩
            · exact Or.inr h


lemma Processed_mono {classes : List ClassDef}
    {st st2 : List String × List String} {x : String}
    (h1 : st.1 ⊆ st2.1) (h2 : st.2 ⊆ st2.2)
    (h : Processed classes st x) : Processed classes st2 x := by
  intro cls hcls
  obtain ⟨ha, hb⟩ := h cls hcls
  exact ⟨fun p hp => h1 (ha p hp), fun pr hpr => h2 (hb pr hpr)⟩

lemma filter_not_contains_mono {U seen seen2 : List String}
    (h : seen ⊆ seen2) :
    (U.filter (fun u => !(seen2.contains u))).length ≤
      (U.filter (fun u => !(seen.contains u))).length := by
  apply List.Sublist.length_le
  apply List.monotone_filter_right
  intro a ha
  simp only [Bool.not_eq_true'] at ha ⊢
  rw [← Bool.not_eq_true] at ha ⊢
  intro hc
  exact ha (List.elem_iff.mpr (h (List.elem_iff.mp hc)))

lemma filter_not_contains_append_lt (U seen : List String) (name : String)
    (hU : name ∈ U) (hseen : seen.contains name = false) :
    (U.filter (fun u => !((seen ++ [name]).contains u))).length <
      (U.filter (fun u => !(seen.contains u))).length := by
  have hsub : List.Sublist (U.filter (fun u => !((seen ++ [name]).contains u)))
      (U.filter (fun u => !(seen.contains u))) := by
    apply List.monotone_filter_right
    intro a ha
    simp only [Bool.not_eq_true'] at ha ⊢
    rw [← Bool.not_eq_true] at ha ⊢
    intro hc
    exact ha (List.elem_iff.mpr (List.mem_append.mpr
      (Or.inl (List.elem_iff.mp hc))))
  rcases Nat.lt_or_ge (U.filter (fun u => !((seen ++ [name]).contains u))).length
      (U.filter (fun u => !(seen.contains u))).length with h | h
  · exact h
  · exfalso
    have heq : (U.filter (fun u => !((seen ++ [name]).contains u))) =
        (U.filter (fun u => !(seen.contains u))) :=
      hsub.eq_of_length (Nat.le_antisymm hsub.length_le h)
    have hmem2 : name ∈ U.filter (fun u => !(seen.contains u)) := by
      rw [List.mem_filter]
      exact ⟨hU, by rw [hseen]; rfl⟩
    rw [← heq, List.mem_filter] at hmem2
    have : ((seen ++ [name]).contains name) = true :=
      List.elem_iff.mpr (List.mem_append.mpr (Or.inr (by simp)))
    rw [this] at hmem2
    exact absurd hmem2.2 (by decide)

lemma walk_processed_fold (classes : List ClassDef) (U : List String)
    (fuel : Nat)
    (hwalk : ∀ (q : String) (st : List String × List String), q ∈ U →
      (U.filter (fun u => !(st.1.contains u))).length < fuel →
      ∀ x ∈ (walk classes fuel q st).1,
        x ∈ st.1 ∨ Processed classes (walk classes fuel q st) x) :
    ∀ (l : List String), (∀ p ∈ l, p ∈ U) →
      ∀ st : List String × List String,
        (U.filter (fun u => !(st.1.contains u))).length < fuel →
        (st.1 ⊆ (l.foldl (fun acc p => walk classes fuel p acc) st).1 ∧
          st.2 ⊆ (l.foldl (fun acc p => walk classes fuel p acc) st).2) ∧
        (∀ p ∈ l, p ∈ (l.foldl (fun acc p => walk classes fuel p acc) st).1) ∧
        (∀ x ∈ (l.foldl (fun acc p => walk classes fuel p acc) st).1,
          x ∈ st.1 ∨
            Processed classes (l.foldl (fun acc p => walk classes fuel p acc) st) x) := by
  intro l
  induction l with
  | nil =>
      intro _ st _
      refine ⟨⟨List.Subset.refl _, List.Subset.refl _⟩, ?_, ?_⟩
      · intro p hp
        exact absurd hp (List.not_mem_nil p)
      · intro x hx
        exact Or.inl hx
  | cons p ps ih =>
      intro hl st hlen
      rw [List.foldl_cons]
      have hpU : p ∈ U := hl p (List.mem_cons_self _ _)
      have hpsU : ∀ q ∈ ps, q ∈ U := fun q hq => hl q (List.mem_cons_of_mem _ hq)
      have hstep := hwalk p st hpU hlen
      have hmono1 := walk_mono classes fuel p st
      have hlen2 : (U.filter (fun u =>
          !((walk classes fuel p st).1.contains u))).length < fuel :=
        Nat.lt_of_le_of_lt (filter_not_contains_mono hmono1.1) hlen
      have hpos : 0 < fuel := Nat.lt_of_le_of_lt (Nat.zero_le _) hlen
      have hpin : p ∈ (walk classes fuel p st).1 := walk_visits classes hpos p st
      have hrest := ih hpsU (walk classes fuel p st) hlen2
      have hmono2 := hrest.1
      refine ⟨⟨hmono1.1.trans hmono2.1, hmono1.2.trans hmono2.2⟩, ?_, ?_⟩
      · intro q hq
        rcases List.mem_cons.mp hq with h | h
        · rw [h]
          exact hmono2.1 hpin
        · exact hrest.2.1 q h
      · intro x hx
        rcases hrest.2.2 x hx with h | h
        · rcases hstep x h with h2 | h2
          · exact Or.inl h2
          · exact Or.inr (Processed_mono hmono2.1 hmono2.2 h2)
        · exact Or.inr h

lemma walk_processed (classes : List ClassDef) (U : List String)
    (hUclosed : ∀ c ∈ classes, ∀ p ∈ c.parents, p ∈ U) :
    ∀ (fuel : Nat) (name : String) (st : List String × List String), name ∈ U →
      (U.filter (fun u => !(st.1.contains u))).length < fuel →
      ∀ x ∈ (walk classes fuel name st).1,
        x ∈ st.1 ∨ Processed classes (walk classes fuel name st) x := by
  intro fuel
  induction fuel with
  | zero =>
      intro name st _ hf
      exact absurd hf (Nat.not_lt_zero _)
  | succ fuel ih =>
      intro name st hUname hf
      simp only [walk]
      split
      next hcont =>
        intro x hx
        exact Or.inl hx
      next hcont =>
        have hnc : st.1.contains name = false := by
          rw [← Bool.not_eq_true]
          exact hcont
        split
        next hlook =>
          intro x hx
          rcases List.mem_append.mp hx with h | h
          · exact Or.inl h
          · simp only [List.mem_singleton] at h
            rw [h]
            right
            intro cls hcls
            rw [hlook] at hcls
            exact absurd hcls (by simp)
        next cls hlook =>
          have hlen2 : (U.filter (fun u =>
              !((st.1 ++ [name]).contains u))).length < fuel := by
            have h1 := filter_not_contains_append_lt U st.1 name hUname hnc
            omega
          have hplU : ∀ p ∈ cls.parents, p ∈ U :=
            fun p hp => hUclosed cls (lookupClass_mem hlook) p hp
          have hfold := walk_processed_fold classes U fuel ih cls.parents hplU
            (st.1 ++ [name], cls.properties.foldl addUnique st.2) hlen2
          have hproc : Processed classes
              (cls.parents.foldl (fun acc p => walk classes fuel p acc)
                (st.1 ++ [name], cls.properties.foldl addUnique st.2)) name := by
            intro cls2 hcls2
            rw [hlook] at hcls2
            have hc2 : cls2 = cls := by
              injection hcls2.symm
            rw [hc2]
            constructor
            · intro p hp
              exact hfold.2.1 p hp
            · intro pr hpr
              exact hfold.1.2 (mem_foldl_addUnique_of_mem _ hpr)
          intro x hx
          rcases hfold.2.2 x hx with h | h
          · rcases List.mem_append.mp h with h2 | h2
            · exact Or.inl h2
            · simp only [List.mem_singleton] at h2
              rw [h2]
              exact Or.inr hproc
          · exact Or.inr h


lemma collect_iff (classes : List ClassDef) (clsName : String) (pr : String) :
    pr ∈ collectAllPropsForClass clsName classes ↔
      ∃ a cls, Reaches classes clsName a ∧ lookupClass classes a = some cls ∧
        pr ∈ cls.properties := by
  constructor
  · intro h
    have hs := (walk_sound classes ((walkUniverse classes clsName).length + 1)
      clsName ([], [])).2 pr h
    rcases hs with h2 | h2
    · exact absurd h2 (List.not_mem_nil pr)
    · exact h2
  · rintro ⟨a, cls, hr, hlook, hpr⟩
    have hUmem : clsName ∈ walkUniverse classes clsName := by
      unfold walkUniverse
      rw [List.mem_dedup]
      exact List.mem_cons_self _ _
    have hUclosed : ∀ c ∈ classes, ∀ p ∈ c.parents,
        p ∈ walkUniverse classes clsName := by
      intro c hc p hp
      unfold walkUniverse
      rw [List.mem_dedup]
      apply List.mem_cons_of_mem
      rw [List.mem_flatten]
      exact ⟨c.parents, List.mem_map_of_mem _ hc, hp⟩
    have hlen : ((walkUniverse classes clsName).filter
        (fun u => !(([] : List String).contains u))).length <
        (walkUniverse classes clsName).length + 1 := by
      have he : ((walkUniverse classes clsName).filter
          (fun u => !(([] : List String).contains u))) =
          walkUniverse classes clsName := by
        apply List.filter_eq_self.mpr
        intro u _
        rfl
      rw [he]
      omega
    have hmain := walk_processed classes (walkUniverse classes clsName) hUclosed
      ((walkUniverse classes clsName).length + 1) clsName ([], []) hUmem hlen
    have hseen : ∀ b, Reaches classes clsName b →
        b ∈ (walk classes ((walkUniverse classes clsName).length + 1)
          clsName ([], [])).1 := by
      intro b hb
      induction hb with
      | refl => exact walk_visits classes (Nat.succ_pos _) clsName ([], [])
      | step hab hlookb hmemb ih =>
          rcases hmain _ ih with h2 | h2
          · exact absurd h2 (List.not_mem_nil _)
          · exact (h2 _ hlookb).1 _ hmemb
    have ha := hseen a hr
    rcases hmain a ha with h2 | h2
    · exact absurd h2 (List.not_mem_nil _)
    · exact (h2 cls hlook).2 pr hpr

/-- Claim C5: the property fields emitted for a class are exactly the union
of its own declared properties and the properties declared by each
transitively resolvable ancestor, with set semantics by property name (so a
diamond contributes a property once); on the minimal Thing and Person
fixture, the Person declaration carries the inherited name property and the
Thing declaration has no fields. -/
theorem c5_fields_are_ancestor_union
    (classes : List ClassDef) (props : List PropDef) (schemaName : String)
    (hdom : ∀ c ∈ classes, ∀ p ∈ c.properties, (lookupProp props p).isSome = true) :
    (∀ pr, pr ∈ fieldNamesFor classes props schemaName ↔
        ∃ a cls, Reaches classes schemaName a ∧ lookupClass classes a = some cls ∧
          pr ∈ cls.properties) ∧
      (fieldNamesFor classes props schemaName).Nodup ∧
      collectAllPropsForClass "Person"
          [ClassDef.mk "Person" "https://schema.org/Person" ["Thing"] ["name"],
            ClassDef.mk "Thing" "https://schema.org/Thing" [] []] = ["name"] ∧
      collectAllPropsForClass "Thing"
          [ClassDef.mk "Person" "https://schema.org/Person" ["Thing"] ["name"],
            ClassDef.mk "Thing" "https://schema.org/Thing" [] []] = [] ∧
      fieldNamesFor
          [ClassDef.mk "Person" "https://schema.org/Person" ["Thing"] ["name"],
            ClassDef.mk "Thing" "https://schema.org/Thing" [] []]
          [PropDef.mk "name" "https://schema.org/name" ["Person"] ["Text"]]
          "Person" = ["name"] ∧
      fieldNamesFor
          [ClassDef.mk "Person" "https://schema.org/Person" ["Thing"] ["name"],
            ClassDef.mk "Thing" "https://schema.org/Thing" [] []]
          [PropDef.mk "name" "https://schema.org/name" ["Person"] ["Text"]]
          "Thing" = [] := by
  refine ⟨?_, ?_, by decide, by decide, by decide, by decide⟩
  · intro pr
    unfold fieldNamesFor
    rw [List.mem_filter, mem_sortStrings, collect_iff]
    constructor
    · rintro ⟨h, _⟩
      exact h
    · intro h
      refine ⟨h, ?_⟩
      rcases h with ⟨a, cls, hr, hlook, hpr⟩
      exact hdom cls (lookupClass_mem hlook) pr hpr
  · have hnd : (collectAllPropsForClass schemaName classes).Nodup := by
      unfold collectAllPropsForClass
      exact walk_nodup_out classes _ schemaName ([], []) List.nodup_nil
    exact List.Nodup.filter _ (sortStrings_nodup hnd)

/-- Witness for claim C5 at the Thing and Person fixture. -/
theorem c5_fields_are_ancestor_union_witness :
    ("name" ∈ fieldNamesFor
        [ClassDef.mk "Person" "https://schema.org/Person" ["Thing"] ["name"],
          ClassDef.mk "Thing" "https://schema.org/Thing" [] []]
        [PropDef.mk "name" "https://schema.org/name" ["Person"] ["Text"]]
        "Person" ↔
      ∃ a cls, Reaches
          [ClassDef.mk "Person" "https://schema.org/Person" ["Thing"] ["name"],
            ClassDef.mk "Thing" "https://schema.org/Thing" [] []] "Person" a ∧
        lookupClass
          [ClassDef.mk "Person" "https://schema.org/Person" ["Thing"] ["name"],
            ClassDef.mk "Thing" "https://schema.org/Thing" [] []] a = some cls ∧
        "name" ∈ cls.properties) ∧
      (fieldNamesFor
        [ClassDef.mk "Person" "https://schema.org/Person" ["Thing"] ["name"],
          ClassDef.mk "Thing" "https://schema.org/Thing" [] []]
        [PropDef.mk "name" "https://schema.org/name" ["Person"] ["Text"]]
        "Person").Nodup := by
  have h := c5_fields_are_ancestor_union
    [ClassDef.mk "Person" "https://schema.org/Person" ["Thing"] ["name"],
      ClassDef.mk "Thing" "https://schema.org/Thing" [] []]
    [PropDef.mk "name" "https://schema.org/name" ["Person"] ["Text"]]
    "Person" (by decide)
  exact ⟨h.1 "name", h.2.1⟩


/-! ### Claims C1 and C2: characterizing the edge-building pass -/

lemma lookup_of_mem_nodup {classes : List ClassDef}
    (hnodup : (classNames classes).Nodup)
    {cls : ClassDef} {n : String} (hmem : cls ∈ classes) (hname : cls.name = n) :
    lookupClass classes n = some cls := by
  induction classes with
  | nil => exact absurd hmem (List.not_mem_nil _)
  | cons c cs ih =>
      unfold classNames at hnodup
      rw [List.map_cons, List.nodup_cons] at hnodup
      unfold lookupClass
      rcases List.mem_cons.mp hmem with h | h
      · have hbeq : (c.name == n) = true := by
          rw [← h, hname]
          exact beq_self_eq_true n
        rw [List.find?_cons_of_pos (p := fun c2 => c2.name == n) cs hbeq, h]
      · by_cases hcx : (c.name == n) = true
        · exfalso
          apply hnodup.1
          have : cls.name ∈ List.map (fun c => c.name) cs :=
            List.mem_map_of_mem _ h
          rw [hname] at this
          rw [← eq_of_beq hcx] at this
          exact this
        · rw [List.find?_cons_of_neg (p := fun c2 => c2.name == n) cs hcx]
          exact ih hnodup.2 h

lemma addChild_mem {children : String → List String} {p cname pp y : String} :
    y ∈ addChild children p cname pp ↔
      y ∈ children pp ∨ (pp = p ∧ y = cname) := by
  unfold addChild
  by_cases hp : pp = p
  · rw [if_pos hp]
    subst hp
    by_cases hc : (children pp).contains cname = true
    · rw [if_pos hc]
      constructor
      · intro h
        exact Or.inl h
      · rintro (h | ⟨-, h2⟩)
        · exact h
        · rw [h2]
          exact List.elem_iff.mp hc
    · rw [if_neg hc]
      constructor
      · intro h
        rcases List.mem_append.mp h with h | h
        · exact Or.inl h
        · simp only [List.mem_singleton] at h
          exact Or.inr ⟨rfl, h⟩
      · rintro (h | ⟨-, h2⟩)
        · exact List.mem_append.mpr (Or.inl h)
        · rw [h2]
          exact List.mem_append.mpr (Or.inr (by simp))
  · rw [if_neg hp]
    constructor
    · exact Or.inl
    · rintro (h | ⟨h1, -⟩)
      · exact h
      · exact absurd h1 hp

lemma addChild_nodup {children : String → List String} {p cname : String}
    (h : ∀ pp, (children pp).Nodup) :
    ∀ pp, (addChild children p cname pp).Nodup := by
  intro pp
  unfold addChild
  by_cases hp : pp = p
  · rw [if_pos hp]
    split
    · exact h p
    next hc =>
      apply List.Nodup.append (h p) (List.nodup_singleton _)
      intro a ha hb
      simp only [List.mem_singleton] at hb
      rw [hb] at ha
      exact hc (List.elem_iff.mpr ha)
  · rw [if_neg hp]
    exact h pp

lemma edgeStep_indeg_self (classes : List ClassDef) (cname : String) :
    ∀ (ps : List String) (st : (String → Int) × (String → List String)),
      (edgeStep classes cname st ps).1 cname =
        st.1 cname + ((ps.filter (fun p => hasClass classes p)).length : Int) := by
  intro ps
  induction ps with
  | nil =>
      intro st
      simp [edgeStep]
  | cons p ps ih =>
      intro st
      simp only [edgeStep]
      by_cases hp : hasClass classes p = true
      · rw [if_pos hp, ih,
          List.filter_cons_of_pos (p := fun q => hasClass classes q) (a := p) hp]
        show (bumpIndeg st.1 cname) cname + _ = _
        unfold bumpIndeg
        rw [if_pos rfl]
        simp only [List.length_cons]
        push_cast
        omega
      · rw [if_neg hp, ih,
          List.filter_cons_of_neg (p := fun q => hasClass classes q) (a := p) hp]

lemma edgeStep_indeg_other (classes : List ClassDef) (cname : String)
    {x : String} (hx : x ≠ cname) :
    ∀ (ps : List String) (st : (String → Int) × (String → List String)),
      (edgeStep classes cname st ps).1 x = st.1 x := by
  intro ps
  induction ps with
  | nil =>
      intro st
      rfl
  | cons p ps ih =>
      intro st
      simp only [edgeStep]
      by_cases hp : hasClass classes p = true
      · rw [if_pos hp, ih]
        show (if x = cname then _ else st.1 x) = st.1 x
        rw [if_neg hx]
      · rw [if_neg hp, ih]

lemma edgeStep_children_mem (classes : List ClassDef) (cname : String) :
    ∀ (ps : List String) (st : (String → Int) × (String → List String))
      (pp y : String),
      y ∈ (edgeStep classes cname st ps).2 pp ↔
        y ∈ st.2 pp ∨ (y = cname ∧ pp ∈ ps ∧ hasClass classes pp = true) := by
  intro ps
  induction ps with
  | nil =>
      intro st pp y
      simp [edgeStep]
  | cons p ps ih =>
      intro st pp y
      simp only [edgeStep]
      by_cases hp : hasClass classes p = true
      · rw [if_pos hp, ih]
        show y ∈ addChild st.2 p cname pp ∨ _ ↔ _
        rw [addChild_mem]
        constructor
        · rintro ((h | ⟨hpp, hy⟩) | ⟨hy, hmem, hhas⟩)
          · exact Or.inl h
          · refine Or.inr ⟨hy, ?_, ?_⟩
            · rw [hpp]
              exact List.mem_cons_self _ _
            · rw [hpp]
              exact hp
          · exact Or.inr ⟨hy, List.mem_cons_of_mem _ hmem, hhas⟩
        · rintro (h | ⟨hy, hmem, hhas⟩)
          · exact Or.inl (Or.inl h)
          · rcases List.mem_cons.mp hmem with h2 | h2
            · exact Or.inl (Or.inr ⟨h2, hy⟩)
            · exact Or.inr ⟨hy, h2, hhas⟩
      · rw [if_neg hp, ih]
        constructor
        · rintro (h | ⟨hy, hmem, hhas⟩)
          · exact Or.inl h
          · exact Or.inr ⟨hy, List.mem_cons_of_mem _ hmem, hhas⟩
        · rintro (h | ⟨hy, hmem, hhas⟩)
          · exact Or.inl h
          · rcases List.mem_cons.mp hmem with h2 | h2
            · exfalso
              rw [h2] at hhas
              exact hp hhas
            · exact Or.inr ⟨hy, h2, hhas⟩

lemma edgeStep_children_nodup (classes : List ClassDef) (cname : String) :
    ∀ (ps : List String) (st : (String → Int) × (String → List String)),
      (∀ pp, (st.2 pp).Nodup) →
      ∀ pp, ((edgeStep classes cname st ps).2 pp).Nodup := by
  intro ps
  induction ps with
  | nil =>
      intro st h pp
      exact h pp
  | cons p ps ih =>
      intro st h pp
      simp only [edgeStep]
      by_cases hp : hasClass classes p = true
      · rw [if_pos hp]
        exact ih _ (addChild_nodup h) pp
      · rw [if_neg hp]
        exact ih _ h pp

lemma buildEdgesGo_indeg (classes : List ClassDef) :
    ∀ (cs : List ClassDef) (st : (String → Int) × (String → List String))
      (x : String),
      (buildEdgesGo classes st cs).1 x =
        st.1 x + ((cs.filter (fun c => c.name == x)).map
          (fun c => ((c.parents.filter (fun p => hasClass classes p)).length : Int))).sum := by
  intro cs
  induction cs with
  | nil =>
      intro st x
      simp [buildEdgesGo]
  | cons c cs ih =>
      intro st x
      simp only [buildEdgesGo]
      rw [ih]
      by_cases hc : c.name = x
      · subst hc
        rw [List.filter_cons_of_pos (p := fun c2 => c2.name == c.name) (a := c) (l := cs)
          (beq_self_eq_true c.name)]
        rw [List.map_cons, List.sum_cons]
        rw [edgeStep_indeg_self classes c.name c.parents st]
        ring
      · rw [List.filter_cons_of_neg (p := fun c2 => c2.name == x) (a := c) (l := cs)
          (by show ¬(c.name == x) = true; simpa using hc)]
        rw [edgeStep_indeg_other classes c.name (fun h => hc h.symm)]

lemma filter_name_unique {classes : List ClassDef}
    (hnodup : (classNames classes).Nodup) {x : String} {cls : ClassDef}
    (hl : lookupClass classes x = some cls) :
    classes.filter (fun c => c.name == x) = [cls] := by
  induction classes with
  | nil => exact absurd hl (by simp [lookupClass])
  | cons c cs ih =>
      unfold classNames at hnodup
      rw [List.map_cons, List.nodup_cons] at hnodup
      by_cases hcx : (c.name == x) = true
      · have hc : lookupClass (c :: cs) x = some c := by
          unfold lookupClass
          rw [List.find?_cons_of_pos (p := fun c2 => c2.name == x) cs hcx]
        rw [hc] at hl
        have hcc : c = cls := by injection hl
        rw [List.filter_cons_of_pos (p := fun c2 => c2.name == x) (a := c) (l := cs) hcx]
        have hnil : cs.filter (fun c2 => c2.name == x) = [] := by
          rw [List.filter_eq_nil_iff]
          intro c2 hc2 hbeq
          apply hnodup.1
          have : c2.name ∈ List.map (fun c3 => c3.name) cs :=
            List.mem_map_of_mem _ hc2
          rw [eq_of_beq hbeq, ← eq_of_beq hcx] at this
          exact this
        rw [hnil, hcc]
      · have hc : lookupClass (c :: cs) x = lookupClass cs x := by
          unfold lookupClass
          rw [List.find?_cons_of_neg (p := fun c2 => c2.name == x) cs hcx]
        rw [hc] at hl
        rw [List.filter_cons_of_neg (p := fun c2 => c2.name == x) (a := c) (l := cs) hcx]
        exact ih hnodup.2 hl

lemma buildEdges_indeg (classes : List ClassDef)
    (hnodup : (classNames classes).Nodup) (x : String) :
    (buildEdges classes).1 x = ((resolvableParentOccs classes x).length : Int) := by
  unfold buildEdges
  rw [buildEdgesGo_indeg]
  show 0 + _ = _
  rw [zero_add]
  cases hl : lookupClass classes x with
  | none =>
      have hnil : classes.filter (fun c => c.name == x) = [] := by
        rw [List.filter_eq_nil_iff]
        intro c hc hbeq
        have : lookupClass classes x ≠ none := by
          unfold lookupClass
          intro hnone
          rw [List.find?_eq_none] at hnone
          exact hnone c hc hbeq
        exact this hl
      rw [hnil]
      unfold resolvableParentOccs
      rw [hl]
      simp
  | some cls =>
      rw [filter_name_unique hnodup hl]
      unfold resolvableParentOccs
      rw [hl]
      simp

lemma buildEdgesGo_children_mem (classes : List ClassDef) :
    ∀ (cs : List ClassDef) (st : (String → Int) × (String → List String))
      (pp y : String),
      y ∈ (buildEdgesGo classes st cs).2 pp ↔
        y ∈ st.2 pp ∨
          ∃ c ∈ cs, c.name = y ∧ pp ∈ c.parents ∧ hasClass classes pp = true := by
  intro cs
  induction cs with
  | nil =>
      intro st pp y
      simp [buildEdgesGo]
  | cons c cs ih =>
      intro st pp y
      simp only [buildEdgesGo]
      rw [ih, edgeStep_children_mem]
      constructor
      · rintro ((h | ⟨hy, hmem, hhas⟩) | ⟨c2, hc2, hname, hmem, hhas⟩)
        · exact Or.inl h
        · exact Or.inr ⟨c, List.mem_cons_self _ _, hy.symm, hmem, hhas⟩
        · exact Or.inr ⟨c2, List.mem_cons_of_mem _ hc2, hname, hmem, hhas⟩
      · rintro (h | ⟨c2, hc2, hname, hmem, hhas⟩)
        · exact Or.inl (Or.inl h)
        · rcases List.mem_cons.mp hc2 with h2 | h2
          · rw [h2] at hname hmem
            exact Or.inl (Or.inr ⟨hname.symm, hmem, hhas⟩)
          · exact Or.inr ⟨c2, h2, hname, hmem, hhas⟩

lemma buildEdges_children_nodup (classes : List ClassDef) :
    ∀ pp, ((buildEdges classes).2 pp).Nodup := by
  unfold buildEdges
  have hgo : ∀ (cs : List ClassDef) (st : (String → Int) × (String → List String)),
      (∀ pp, (st.2 pp).Nodup) → ∀ pp, ((buildEdgesGo classes st cs).2 pp).Nodup := by
    intro cs
    induction cs with
    | nil =>
        intro st h pp
        exact h pp
    | cons c cs ih =>
        intro st h pp
        simp only [buildEdgesGo]
        exact ih _ (edgeStep_children_nodup classes c.name c.parents st h) pp
  exact hgo classes _ (fun pp => List.nodup_nil)

lemma buildEdges_children_mem (classes : List ClassDef)
    (hnodup : (classNames classes).Nodup) (pp y : String) :
    y ∈ (buildEdges classes).2 pp ↔ pp ∈ resolvableParentOccs classes y := by
  unfold buildEdges
  rw [buildEdgesGo_children_mem]
  simp only [List.not_mem_nil, false_or]
  constructor
  · rintro ⟨c, hc, hname, hpar, hhas⟩
    unfold resolvableParentOccs
    rw [lookup_of_mem_nodup hnodup hc hname]
    exact List.mem_filter.mpr ⟨hpar, hhas⟩
  · intro h
    unfold resolvableParentOccs at h
    cases hl : lookupClass classes y with
    | none =>
        rw [hl] at h
        exact absurd h (List.not_mem_nil _)
    | some cls =>
        rw [hl] at h
        have h2 := List.mem_filter.mp h
        exact ⟨cls, lookupClass_mem hl, lookupClass_name hl, h2.1, h2.2⟩

lemma children_subset_names (classes : List ClassDef)
    (hnodup : (classNames classes).Nodup) {pp y : String}
    (h : y ∈ (buildEdges classes).2 pp) : y ∈ classNames classes := by
  rw [buildEdges_children_mem classes hnodup] at h
  unfold resolvableParentOccs at h
  cases hl : lookupClass classes y with
  | none =>
      rw [hl] at h
      exact absurd h (List.not_mem_nil _)
  | some cls =>
      have : cls.name = y := lookupClass_name hl
      rw [← this]
      exact List.mem_map_of_mem _ (lookupClass_mem hl)


lemma processChildren_indeg :
    ∀ (l : List String) (indeg : String → Int) (q : List String) (x : String),
      l.Nodup →
      (processChildren l indeg q).1 x = indeg x - (if x ∈ l then 1 else 0) := by
  intro l
  induction l with
  | nil =>
      intro indeg q x _
      simp [processChildren]
  | cons ch rest ih =>
      intro indeg q x hnd
      rw [List.nodup_cons] at hnd
      simp only [processChildren]
      rw [ih _ _ _ hnd.2]
      by_cases hx : x = ch
      · subst hx
        rw [if_pos rfl, if_pos (List.mem_cons_self _ _), if_neg hnd.1]
        omega
      · rw [if_neg hx]
        by_cases hxr : x ∈ rest
        · rw [if_pos hxr, if_pos (List.mem_cons_of_mem _ hxr)]
        · rw [if_neg hxr, if_neg (by
            intro hmem
            rcases List.mem_cons.mp hmem with h | h
            · exact hx h
            · exact hxr h)]

lemma processChildren_queue :
    ∀ (l : List String) (indeg : String → Int) (q : List String),
      l.Nodup →
      (processChildren l indeg q).2 =
        q ++ l.filter (fun ch => decide (indeg ch - 1 = 0)) := by
  intro l
  induction l with
  | nil =>
      intro indeg q _
      simp [processChildren]
  | cons ch rest ih =>
      intro indeg q hnd
      rw [List.nodup_cons] at hnd
      simp only [processChildren]
      rw [ih _ _ hnd.2]
      have hfil : rest.filter (fun c =>
          decide ((if c = ch then indeg ch - 1 else indeg c) - 1 = 0)) =
          rest.filter (fun c => decide (indeg c - 1 = 0)) := by
        apply List.filter_congr
        intro c hc
        rw [if_neg (by
          intro he
          rw [he] at hc
          exact hnd.1 hc)]
      rw [hfil]
      by_cases hz : indeg ch - 1 = 0
      · rw [if_pos (by simpa using hz),
          List.filter_cons_of_pos (by rw [decide_eq_true_eq]; exact hz)]
        simp
      · rw [if_neg (by simpa using hz),
          List.filter_cons_of_neg (by rw [decide_eq_true_eq]; exact hz)]

lemma filter_contains_append_singleton {l out : List String} {n : String}
    (hnd : l.Nodup) (hn : n ∉ out) :
    (l.filter (fun p => (out ++ [n]).contains p)).length =
      (l.filter (fun p => out.contains p)).length + (if n ∈ l then 1 else 0) := by
  induction l with
  | nil => simp
  | cons p rest ih =>
      rw [List.nodup_cons] at hnd
      by_cases hp : p = n
      · subst hp
        have hA : ((out ++ [p]).contains p) = true := by
          rw [List.elem_iff]
          exact List.mem_append.mpr (Or.inr (by simp))
        have hB : ¬(out.contains p) = true := by
          rw [List.elem_iff]
          exact hn
        have hfil2 : rest.filter (fun q2 => (out ++ [p]).contains q2) =
            rest.filter (fun q2 => out.contains q2) := by
          apply List.filter_congr
          intro q2 hq2
          have hqp : q2 ≠ p := by
            intro he
            rw [he] at hq2
            exact hnd.1 hq2
          cases hc : out.contains q2 with
          | true =>
              rw [List.elem_iff] at hc ⊢
              exact List.mem_append.mpr (Or.inl hc)
          | false =>
              rw [← Bool.not_eq_true] at hc ⊢
              rw [List.elem_iff] at hc ⊢
              intro hmem
              rcases List.mem_append.mp hmem with h | h
              · exact hc h
              · simp only [List.mem_singleton] at h
                exact hqp h
        rw [List.filter_cons_of_pos (p := fun q2 => (out ++ [p]).contains q2) hA,
          List.filter_cons_of_neg (p := fun q2 => out.contains q2) hB, hfil2,
          if_pos (List.mem_cons_self _ _), List.length_cons]
      · have hcond : ((out ++ [n]).contains p) = (out.contains p) := by
          cases hc : out.contains p with
          | true =>
              rw [List.elem_iff] at hc ⊢
              exact List.mem_append.mpr (Or.inl hc)
          | false =>
              rw [← Bool.not_eq_true] at hc ⊢
              rw [List.elem_iff] at hc ⊢
              intro hmem
              rcases List.mem_append.mp hmem with h | h
              · exact hc h
              · simp only [List.mem_singleton] at h
                exact hp h
        have hif : (if n ∈ p :: rest then (1 : Nat) else 0) =
            (if n ∈ rest then (1 : Nat) else 0) := by
          apply if_congr _ rfl rfl
          rw [List.mem_cons]
          constructor
          · rintro (h | h)
            · exact absurd h.symm hp
            · exact h
          · exact Or.inr
        rw [hif]
        cases hc : out.contains p with
        | true =>
            rw [List.filter_cons_of_pos (p := fun q2 => (out ++ [n]).contains q2)
                (by show ((out ++ [n]).contains p) = true; rw [hcond]; exact hc),
              List.filter_cons_of_pos (p := fun q2 => out.contains q2)
                (by show (out.contains p) = true; exact hc),
              List.length_cons, List.length_cons, ih hnd.2]
            omega
        | false =>
            rw [List.filter_cons_of_neg (p := fun q2 => (out ++ [n]).contains q2)
                (by show ¬((out ++ [n]).contains p) = true; rw [hcond, hc]
                    exact Bool.false_ne_true),
              List.filter_cons_of_neg (p := fun q2 => out.contains q2)
                (by show ¬(out.contains p) = true; rw [hc]; exact Bool.false_ne_true),
              ih hnd.2]

lemma nodup_subset_length_le {l m : List String} (hnd : l.Nodup) (hsub : l ⊆ m) :
    l.length ≤ m.length := by
  have h1 : l.toFinset.card = l.length := List.toFinset_card_of_nodup hnd
  have h2 : l.toFinset ⊆ m.toFinset := by
    intro a ha
    rw [List.mem_toFinset] at ha ⊢
    exact hsub ha
  calc l.length = l.toFinset.card := h1.symm
    _ ≤ m.toFinset.card := Finset.card_le_card h2
    _ ≤ m.length := m.toFinset_card_le

lemma kahn_step (classes : List ClassDef) (hnodup : (classNames classes).Nodup)
    {indeg : String → Int} {n : String} {rest out : List String}
    (hinv : KahnInv classes indeg (n :: rest) out) :
    KahnInv classes
      (processChildren ((buildEdges classes).2 n) indeg rest).1
      (processChildren ((buildEdges classes).2 n) indeg rest).2
      (out ++ [n]) := by
  obtain ⟨hnd, hC, hdeg, hordOut, hordQ⟩ := hinv
  have hchn_nodup : ((buildEdges classes).2 n).Nodup :=
    buildEdges_children_nodup classes n
  have hq2 := processChildren_queue ((buildEdges classes).2 n) indeg rest hchn_nodup
  have hind := fun x =>
    processChildren_indeg ((buildEdges classes).2 n) indeg rest x hchn_nodup
  rw [List.nodup_append] at hnd
  obtain ⟨houtnd, hqnd, hdisj⟩ := hnd
  have hnout : n ∉ out := fun h => hdisj h (List.mem_cons_self _ _)
  rw [List.nodup_cons] at hqnd
  have hchild_iff : ∀ y, y ∈ (buildEdges classes).2 n ↔
      n ∈ (resolvableParentOccs classes y).dedup := by
    intro y
    rw [buildEdges_children_mem classes hnodup, List.mem_dedup]
  have hdres_out : ∀ x ∈ out, n ∉ (resolvableParentOccs classes x).dedup := by
    intro x hx hmem
    exact hnout ((hordOut x hx n hmem).subset (by simp))
  have hdres_q : ∀ x ∈ n :: rest, n ∉ (resolvableParentOccs classes x).dedup := by
    intro x hx hmem
    exact hnout (hordQ x hx n hmem)
  have hPsub : ∀ ch ∈ ((buildEdges classes).2 n).filter
      (fun ch => decide (indeg ch - 1 = 0)),
      ch ∈ (buildEdges classes).2 n ∧ indeg ch = 1 := by
    intro ch hch
    have h2 := List.mem_filter.mp hch
    refine ⟨h2.1, ?_⟩
    have := of_decide_eq_true h2.2
    omega
  have hPfresh : ∀ ch ∈ ((buildEdges classes).2 n).filter
      (fun ch => decide (indeg ch - 1 = 0)),
      ch ∉ out ++ n :: rest := by
    intro ch hch hmem
    have hc := (hchild_iff ch).mp (hPsub ch hch).1
    rcases List.mem_append.mp hmem with h | h
    · exact hdres_out ch h hc
    · exact hdres_q ch h hc
  constructor
  · -- Nodup
    rw [hq2]
    have heq : (out ++ [n]) ++ (rest ++ ((buildEdges classes).2 n).filter
        (fun ch => decide (indeg ch - 1 = 0))) =
        (out ++ n :: rest) ++ ((buildEdges classes).2 n).filter
          (fun ch => decide (indeg ch - 1 = 0)) := by
      simp
    rw [heq, List.nodup_append]
    refine ⟨?_, hchn_nodup.filter _, ?_⟩
    · rw [List.nodup_append]
      exact ⟨houtnd, List.nodup_cons.mpr hqnd, hdisj⟩
    · intro a ha hb
      exact hPfresh a hb ha
  refine ⟨?_, ?_, ?_, ?_⟩
  · -- subset of class names
    intro x hx
    rw [hq2] at hx
    rcases List.mem_append.mp hx with h | h
    · rcases List.mem_append.mp h with h2 | h2
      · exact hC x (List.mem_append.mpr (Or.inl h2))
      · simp only [List.mem_singleton] at h2
        rw [h2]
        exact hC n (List.mem_append.mpr (Or.inr (List.mem_cons_self _ _)))
    · rcases List.mem_append.mp h with h2 | h2
      · exact hC x (List.mem_append.mpr (Or.inr (List.mem_cons_of_mem _ h2)))
      · exact children_subset_names classes hnodup (List.mem_filter.mp h2).1
  · -- in-degree accounting
    intro x
    rw [hind x, hdeg x,
      filter_contains_append_singleton (List.nodup_dedup _) hnout]
    by_cases hxc : x ∈ (buildEdges classes).2 n
    · rw [if_pos hxc, if_pos ((hchild_iff x).mp hxc)]
      push_cast
      ring
    · rw [if_neg hxc, if_neg (fun h => hxc ((hchild_iff x).mpr h))]
      push_cast
      ring
  · -- order within out
    intro x hx p hp
    rcases List.mem_append.mp hx with h | h
    · exact (hordOut x h p hp).trans (List.sublist_append_left out [n])
    · simp only [List.mem_singleton] at h
      subst h
      have hpout : p ∈ out := hordQ x (List.mem_cons_self _ _) p hp
      exact List.Sublist.append (List.singleton_sublist.mpr hpout)
        (List.Sublist.refl [x])
  · -- queued classes have all parents emitted
    intro x hx p hp
    rw [hq2] at hx
    rcases List.mem_append.mp hx with h | h
    · exact List.mem_append.mpr
        (Or.inl (hordQ x (List.mem_cons_of_mem _ h) p hp))
    · obtain ⟨hxc, hx1⟩ := hPsub x h
      have hnd2 : n ∈ (resolvableParentOccs classes x).dedup := (hchild_iff x).mp hxc
      have hcount := filter_contains_append_singleton
        (l := (resolvableParentOccs classes x).dedup) (List.nodup_dedup _) hnout
      rw [if_pos hnd2] at hcount
      have hle1 : (((resolvableParentOccs classes x).dedup.filter
          (fun q2 => (out ++ [n]).contains q2)).length) ≤
          ((resolvableParentOccs classes x).dedup).length :=
        List.length_filter_le _ _
      have hle2 : ((resolvableParentOccs classes x).dedup).length ≤
          (resolvableParentOccs classes x).length :=
        (List.dedup_sublist _).length_le
      have hdx := hdeg x
      rw [hx1] at hdx
      have hfulllen : (((resolvableParentOccs classes x).dedup.filter
          (fun q2 => (out ++ [n]).contains q2)).length) =
          ((resolvableParentOccs classes x).dedup).length := by
        omega
      have hfull : ((resolvableParentOccs classes x).dedup.filter
          (fun q2 => (out ++ [n]).contains q2)) =
          (resolvableParentOccs classes x).dedup :=
        (List.filter_sublist _).eq_of_length hfulllen
      have hpmem : p ∈ (resolvableParentOccs classes x).dedup.filter
          (fun q2 => (out ++ [n]).contains q2) := by
        rw [hfull]
        exact hp
      have := (List.mem_filter.mp hpmem).2
      exact List.elem_iff.mp this


lemma kahnLoop_master (classes : List ClassDef)
    (hnodup : (classNames classes).Nodup) :
    ∀ (fuel : Nat) (indeg : String → Int) (q out : List String),
      KahnInv classes indeg q out →
      (kahnLoop (buildEdges classes).2 fuel indeg q out).Nodup ∧
        (∀ x ∈ kahnLoop (buildEdges classes).2 fuel indeg q out,
          x ∈ classNames classes) ∧
        (∀ x ∈ kahnLoop (buildEdges classes).2 fuel indeg q out,
          ∀ p ∈ (resolvableParentOccs classes x).dedup,
            List.Sublist [p, x] (kahnLoop (buildEdges classes).2 fuel indeg q out)) := by
  intro fuel
  induction fuel with
  | zero =>
      intro indeg q out hinv
      obtain ⟨hnd, hC, _, hordOut, _⟩ := hinv
      rw [List.nodup_append] at hnd
      exact ⟨hnd.1, fun x hx => hC x (List.mem_append.mpr (Or.inl hx)),
        fun x hx p hp => hordOut x hx p hp⟩
  | succ fuel ih =>
      intro indeg q out hinv
      cases q with
      | nil =>
          obtain ⟨hnd, hC, _, hordOut, _⟩ := hinv
          rw [List.nodup_append] at hnd
          exact ⟨hnd.1, fun x hx => hC x (List.mem_append.mpr (Or.inl hx)),
            fun x hx p hp => hordOut x hx p hp⟩
      | cons n rest =>
          simp only [kahnLoop]
          exact ih _ _ _ (kahn_step classes hnodup hinv)

lemma kahnLoop_fuel_irrelevant (classes : List ClassDef)
    (hnodup : (classNames classes).Nodup) :
    ∀ (fuel1 fuel2 : Nat) (indeg : String → Int) (q out : List String),
      KahnInv classes indeg q out →
      (classNames classes).length + 1 ≤ fuel1 + out.length →
      (classNames classes).length + 1 ≤ fuel2 + out.length →
      kahnLoop (buildEdges classes).2 fuel1 indeg q out =
        kahnLoop (buildEdges classes).2 fuel2 indeg q out := by
  intro fuel1
  induction fuel1 with
  | zero =>
      intro fuel2 indeg q out hinv h1 h2
      exfalso
      obtain ⟨hnd, hC, _, _, _⟩ := hinv
      rw [List.nodup_append] at hnd
      have := nodup_subset_length_le hnd.1
        (fun x hx => hC x (List.mem_append.mpr (Or.inl hx)))
      omega
  | succ fuel1 ih =>
      intro fuel2 indeg q out hinv h1 h2
      cases fuel2 with
      | zero =>
          exfalso
          obtain ⟨hnd, hC, _, _, _⟩ := hinv
          rw [List.nodup_append] at hnd
          have := nodup_subset_length_le hnd.1
            (fun x hx => hC x (List.mem_append.mpr (Or.inl hx)))
          omega
      | succ fuel2 =>
          cases q with
          | nil => simp only [kahnLoop]
          | cons n rest =>
              simp only [kahnLoop]
              apply ih fuel2 _ _ _ (kahn_step classes hnodup hinv)
              · rw [List.length_append]
                simp only [List.length_singleton]
                omega
              · rw [List.length_append]
                simp only [List.length_singleton]
                omega

lemma kahnInit_inv (classes : List ClassDef)
    (hnodup : (classNames classes).Nodup) :
    KahnInv classes (buildEdges classes).1
      ((sortStrings (classNames classes)).filter
        (fun n => (buildEdges classes).1 n == 0)) [] := by
  refine ⟨?_, ?_, ?_, ?_, ?_⟩
  · rw [List.nil_append]
    exact (sortStrings_nodup hnodup).filter _
  · intro x hx
    rw [List.nil_append] at hx
    exact mem_sortStrings.mp (List.mem_filter.mp hx).1
  · intro x
    rw [buildEdges_indeg classes hnodup x]
    have hz : ((resolvableParentOccs classes x).dedup.filter
        (fun p => (([] : List String)).contains p)) = [] := by
      rw [List.filter_eq_nil_iff]
      intro a _
      intro hcon
      exact Bool.false_ne_true hcon
    rw [hz]
    simp
  · intro x hx
    exact absurd hx (List.not_mem_nil x)
  · intro x hx p hp
    exfalso
    have hfil := List.mem_filter.mp hx
    have hz : (buildEdges classes).1 x = 0 := eq_of_beq hfil.2
    rw [buildEdges_indeg classes hnodup x] at hz
    have hlen : (resolvableParentOccs classes x).length = 0 := by
      exact_mod_cast hz
    have hnil := List.eq_nil_of_length_eq_zero hlen
    rw [hnil] at hp
    simp at hp

lemma kahnPhase_props (classes : List ClassDef)
    (hnodup : (classNames classes).Nodup) :
    (kahnPhase classes).Nodup ∧
      (∀ x ∈ kahnPhase classes, x ∈ classNames classes) ∧
      (∀ x ∈ kahnPhase classes, ∀ p ∈ (resolvableParentOccs classes x).dedup,
        List.Sublist [p, x] (kahnPhase classes)) := by
  unfold kahnPhase kahnPhaseWithFuel
  exact kahnLoop_master classes hnodup _ _ _ _ (kahnInit_inv classes hnodup)

lemma foldl_addUnique_append (l : List String) :
    ∀ acc : List String, ∃ t, l.foldl addUnique acc = acc ++ t := by
  induction l with
  | nil =>
      intro acc
      exact ⟨[], by simp⟩
  | cons x xs ih =>
      intro acc
      rw [List.foldl_cons]
      by_cases hc : acc.contains x = true
      · obtain ⟨t, ht⟩ := ih (addUnique acc x)
        refine ⟨t, ?_⟩
        rw [ht]
        unfold addUnique
        rw [if_pos hc]
      · obtain ⟨t, ht⟩ := ih (addUnique acc x)
        refine ⟨[x] ++ t, ?_⟩
        rw [ht]
        unfold addUnique
        rw [if_neg hc, List.append_assoc]

/-- Claim C1: for every class mapping, the linearizer terminates (adding
fuel beyond the bound used never changes the Kahn phase) and its output
lists every class name exactly once and nothing else, even when the parent
edges form cycles or point at missing classes. -/
theorem c1_topoSort_terminates_each_once (classes : List ClassDef)
    (hnodup : (classNames classes).Nodup) :
    (∀ extra : Nat,
      kahnPhaseWithFuel ((classNames classes).length + 1 + extra) classes =
        kahnPhase classes) ∧
      (∀ x : String, (topoSortClasses classes).count x =
        if x ∈ classNames classes then 1 else 0) := by
  constructor
  · intro extra
    unfold kahnPhase kahnPhaseWithFuel
    apply kahnLoop_fuel_irrelevant classes hnodup _ _ _ _ _
      (kahnInit_inv classes hnodup)
    · simp
    · simp
  · intro x
    obtain ⟨hnd, hsub, -⟩ := kahnPhase_props classes hnodup
    show ((sortStrings (classNames classes)).foldl addUnique
      (kahnPhase classes)).count x = _
    have hndres : ((sortStrings (classNames classes)).foldl addUnique
        (kahnPhase classes)).Nodup :=
      nodup_foldl_addUnique _ _ hnd
    have hmem : ∀ y, y ∈ (sortStrings (classNames classes)).foldl addUnique
        (kahnPhase classes) ↔ y ∈ classNames classes := by
      intro y
      rw [mem_foldl_addUnique]
      constructor
      · rintro (h | h)
        · exact hsub y h
        · exact mem_sortStrings.mp h
      · intro h
        exact Or.inr (mem_sortStrings.mpr h)
    by_cases hx : x ∈ classNames classes
    · rw [if_pos hx]
      exact List.count_eq_one_of_mem hndres ((hmem x).mpr hx)
    · rw [if_neg hx]
      exact List.count_eq_zero_of_not_mem (fun h => hx ((hmem x).mp h))

/-- Witness for claim C1 on the two-cycle between A and B. -/
theorem c1_topoSort_terminates_each_once_witness :
    kahnPhaseWithFuel
        ((classNames [ClassDef.mk "A" "a" ["B"] [], ClassDef.mk "B" "b" ["A"] []]).length
          + 1 + 5)
        [ClassDef.mk "A" "a" ["B"] [], ClassDef.mk "B" "b" ["A"] []] =
      kahnPhase [ClassDef.mk "A" "a" ["B"] [], ClassDef.mk "B" "b" ["A"] []] ∧
    (topoSortClasses [ClassDef.mk "A" "a" ["B"] [],
      ClassDef.mk "B" "b" ["A"] []]).count "A" = 1 ∧
    (topoSortClasses [ClassDef.mk "A" "a" ["B"] [],
      ClassDef.mk "B" "b" ["A"] []]).count "B" = 1 ∧
    (topoSortClasses [ClassDef.mk "A" "a" ["B"] [],
      ClassDef.mk "B" "b" ["A"] []]).count "C" = 0 := by
  have h := c1_topoSort_terminates_each_once
    [ClassDef.mk "A" "a" ["B"] [], ClassDef.mk "B" "b" ["A"] []] (by decide)
  refine ⟨h.1 5, ?_, ?_, ?_⟩
  · have h2 := h.2 "A"
    rw [if_pos (by decide)] at h2
    exact h2
  · have h2 := h.2 "B"
    rw [if_pos (by decide)] at h2
    exact h2
  · have h2 := h.2 "C"
    rw [if_neg (by decide)] at h2
    exact h2

/-- Claim C2, counterexample: in the graph where X and Y form a parent
cycle, P has parent Y and A has parent P, neither A nor P participates in
any cycle and P is a resolvable parent of A, yet the linearizer emits A
before P (the whole graph is appended by the leftover loop in lexicographic
order because no in-degree ever reaches zero). -/
theorem c2_cycle_descendant_counterexample :
    onParentCycle [ClassDef.mk "A" "a" ["P"] [], ClassDef.mk "P" "p" ["Y"] [],
        ClassDef.mk "X" "x" ["Y"] [], ClassDef.mk "Y" "y" ["X"] []] "A" = false ∧
      onParentCycle [ClassDef.mk "A" "a" ["P"] [], ClassDef.mk "P" "p" ["Y"] [],
        ClassDef.mk "X" "x" ["Y"] [], ClassDef.mk "Y" "y" ["X"] []] "P" = false ∧
      hasClass [ClassDef.mk "A" "a" ["P"] [], ClassDef.mk "P" "p" ["Y"] [],
        ClassDef.mk "X" "x" ["Y"] [], ClassDef.mk "Y" "y" ["X"] []] "P" = true ∧
      (∃ cls ∈ [ClassDef.mk "A" "a" ["P"] [], ClassDef.mk "P" "p" ["Y"] [],
        ClassDef.mk "X" "x" ["Y"] [], ClassDef.mk "Y" "y" ["X"] []],
        cls.name = "A" ∧ "P" ∈ cls.parents) ∧
      topoSortClasses [ClassDef.mk "A" "a" ["P"] [], ClassDef.mk "P" "p" ["Y"] [],
        ClassDef.mk "X" "x" ["Y"] [], ClassDef.mk "Y" "y" ["X"] []] =
        ["A", "P", "X", "Y"] ∧
      ¬ List.Sublist ["P", "A"]
        (topoSortClasses [ClassDef.mk "A" "a" ["P"] [], ClassDef.mk "P" "p" ["Y"] [],
          ClassDef.mk "X" "x" ["Y"] [], ClassDef.mk "Y" "y" ["X"] []]) := by
  refine ⟨by decide, by decide, by decide, by decide, by decide, by decide⟩

/-- Claim C2 (amended): for every class mapping with distinct names, every
class emitted during the Kahn phase appears after each of its resolvable
parents in the final linearized order; classes whose in-degree never
reaches zero (those above a cycle) are appended afterwards and may precede
their parents. -/
theorem c2_resolvable_parent_precedes (classes : List ClassDef)
    (cls : ClassDef) (P : String)
    (hnodup : (classNames classes).Nodup) (hmem : cls ∈ classes)
    (hpar : P ∈ cls.parents) (hres : hasClass classes P = true)
    (hkahn : cls.name ∈ kahnPhase classes) :
    List.Sublist [P, cls.name] (topoSortClasses classes) := by
  have hlook : lookupClass classes cls.name = some cls :=
    lookup_of_mem_nodup hnodup hmem rfl
  have hP : P ∈ (resolvableParentOccs classes cls.name).dedup := by
    rw [List.mem_dedup]
    unfold resolvableParentOccs
    rw [hlook]
    exact List.mem_filter.mpr ⟨hpar, hres⟩
  have horder := (kahnPhase_props classes hnodup).2.2 cls.name hkahn P hP
  show List.Sublist [P, cls.name]
    ((sortStrings (classNames classes)).foldl addUnique (kahnPhase classes))
  obtain ⟨t, ht⟩ := foldl_addUnique_append (sortStrings (classNames classes))
    (kahnPhase classes)
  rw [ht]
  exact horder.trans (List.sublist_append_left _ _)

/-- Witness for the amended claim C2 on the Thing and Person fixture. -/
theorem c2_resolvable_parent_precedes_witness :
    List.Sublist ["Thing", "Person"]
      (topoSortClasses [ClassDef.mk "Person" "p" ["Thing"] ["name"],
        ClassDef.mk "Thing" "t" [] []]) :=
  c2_resolvable_parent_precedes
    [ClassDef.mk "Person" "p" ["Thing"] ["name"], ClassDef.mk "Thing" "t" [] []]
    (ClassDef.mk "Person" "p" ["Thing"] ["name"]) "Thing"
    (by decide) (by decide) (by decide) (by decide) (by decide)


end JsonLdKit
